import Mathlib

/-!
Verification of the directory organizer in `src/main.js`.

The script scans one directory, classifies each plain file by its
lower-cased extension against the static table `FOLDER_MAPPING`, creates
the category subfolder on demand and moves the file there.  We embed the
script shallowly:

* `extname` models Node's `path.extname` restricted to slash-free
  basenames (the only inputs it receives here, since `fs.readdir` returns
  bare names);
* `jsToLower` models JavaScript's `String.prototype.toLowerCase` on the
  ASCII fragment (every extension in the table is ASCII; non-ASCII code
  points are left fixed);
* `getDestinationFolder` is the classifier of lines 32-40;
* the filesystem is a list of `Item`s (top-level entries of the target
  directory; a directory entry carries the names of the files inside it),
  filesystem calls may be made to fail through a `Faults` oracle, and
  `organizeDirectory` / `jsMain` replay lines 46-88 and 92-107.
-/

namespace FileOrganizer

/-- Model of Node's `path.extname` on a slash-free basename, as a function
on character lists.  Node returns the suffix of the name starting at the
last dot, except that it returns the empty string when the name has no
dot, when the last dot is the first character (pure dotfile such as
`.gitignore`), or when the name is exactly `..`. -/
def extnameCore (cs : List Char) : List Char :=
  if (cs.reverse.takeWhile (fun c => c != '.')).length = cs.length then []
  else if (cs.reverse.takeWhile (fun c => c != '.')).length + 1 = cs.length then []
  else if cs = ['.', '.'] then []
  else '.' :: (cs.reverse.takeWhile (fun c => c != '.')).reverse

/-- Model of `path.extname` on strings. -/
def extname (s : String) : String :=
  String.mk (extnameCore s.data)

/-- Model of JavaScript `toLowerCase` on one character: ASCII upper-case
letters are mapped to their lower-case form, everything else is fixed. -/
def jsToLower (c : Char) : Char :=
  if 'A' ≤ c ∧ c ≤ 'Z' then Char.ofNat (c.toNat + 32) else c

/-- Model of JavaScript `toLowerCase` on a string. -/
def toLowerStr (s : String) : String :=
  String.mk (s.data.map jsToLower)

/-- Line 63 of `main.js`: `path.extname(item).toLowerCase()`. -/
def fileExtOf (n : String) : String :=
  toLowerStr (extname n)

/-- The static category table of lines 18-25, in declared key order
(JavaScript `for...in` iterates string keys in insertion order). -/
def FOLDER_MAPPING : List (String × List String) :=
  [("imagens", [".jpg", ".jpeg", ".png", ".gif", ".bmp", ".svg", ".webp"]),
   ("documentos", [".pdf", ".doc", ".docx", ".xls", ".xlsx", ".ppt", ".pptx", ".txt", ".csv", ".rtf"]),
   ("videos", [".mp4", ".mkv", ".avi", ".mov", ".wmv"]),
   ("audios", [".mp3", ".wav", ".aac", ".flac"]),
   ("arquivos_comprimidos", [".zip", ".rar", ".7z", ".tar", ".gz"]),
   ("codigo", [".js", ".html", ".css", ".py", ".java", ".c", ".cpp", ".json", ".xml"])]

/-- The `for (const folder in FOLDER_MAPPING)` loop of lines 33-37:
return the first table entry whose extension list contains `ext`. -/
def findFolder (ext : String) : List (String × List String) → String
  | [] => "outros"
  | (folder, exts) :: rest => if exts.contains ext then folder else findFolder ext rest

/-- `getDestinationFolder` of lines 32-40. -/
def getDestinationFolder (fileExtension : String) : String :=
  findFolder fileExtension FOLDER_MAPPING

/-- Modelled from the spec's words (section 4.1), for comparison with the
code's `getDestinationFolder`: the first category in declared order whose
extension set contains the input, else the fallback `"outros"`. -/
def specFirstCategory (ext : String) : String :=
  match FOLDER_MAPPING.find? (fun p => p.2.contains ext) with
  | some p => p.1
  | none => "outros"


/-- Error codes of the filesystem calls the script performs.  `EOTHER`
stands for every code other than the two the script distinguishes. -/
inductive FsErrorCode
  | ENOENT
  | EEXIST
  | EACCES
  | EOTHER
deriving DecidableEq, Repr

/-- One immediate entry of the target directory: its name, whether it is
a directory, and (for directories) the names of the files inside it. -/
structure Item where
  name : String
  isDir : Bool
  files : List String
deriving DecidableEq, Repr

/-- One performed move, as logged on line 78: the entry's name, the
category folder chosen for it, and the destination path built on lines
68 and 75. -/
structure Move where
  name : String
  folder : String
  dest : String
deriving DecidableEq, Repr

/-- Fault oracle: which filesystem calls of a single run fail, and with
which error code.  Each entry name is statted and renamed at most once
per run and each category is mkdir'ed per entry, so keying faults by the
operation's argument is faithful for one run. -/
structure Faults where
  readdirFail : Option FsErrorCode
  statFail : String → Option FsErrorCode
  mkdirFail : String → Option FsErrorCode
  renameFail : String → Option FsErrorCode

/-- The fault-free oracle: every filesystem call succeeds. -/
def noFaults : Faults :=
  ⟨none, fun _ => none, fun _ => none, fun _ => none⟩

/-- Directory lookup by name (first match, as on a real filesystem where
names are unique). -/
def findItem (d : List Item) (n : String) : Option Item :=
  d.find? (fun it => it.name == n)

/-- Model of `path.join` for a directory prefix and one simple segment. -/
def pathJoin (a b : String) : String :=
  a ++ "/" ++ b

/-- Model of `fs.mkdir(path, { recursive: true })` (line 72): succeeds
and changes nothing when the path already exists as a directory, creates
an empty directory when the path is absent, and fails with `EEXIST` when
the path exists as a plain file. -/
def mkdirRecursive (d : List Item) (folder : String) : Except FsErrorCode (List Item) :=
  match findItem d folder with
  | some it => if it.isDir then Except.ok d else Except.error FsErrorCode.EEXIST
  | none => Except.ok (d ++ [Item.mk folder true []])

/-- Adding a file name to a folder's contents; `fs.rename` silently
overwrites an existing destination file, so the name is kept unique. -/
def insertFile (files : List String) (n : String) : List String :=
  if files.contains n then files else files ++ [n]

/-- Removing the moved entry from the top level of the directory. -/
def removeTop (d : List Item) (n : String) : List Item :=
  d.filter (fun it => !(it.name == n))

/-- Recording the moved file inside the destination directory. -/
def insertIntoFolder (d : List Item) (folder n : String) : List Item :=
  d.map (fun it =>
    if it.name == folder && it.isDir then Item.mk it.name it.isDir (insertFile it.files n)
    else it)

/-- Model of `fs.rename(itemPath, newFilePath)` (line 76): the entry
leaves the top level and appears inside the destination folder. -/
def renameIntoFolder (d : List Item) (folder n : String) : List Item :=
  insertIntoFolder (removeTop d n) folder n

/-- One iteration of the `for (const item of items)` loop, lines 53-79:
stat the entry, skip directories and `main.js`, skip entries whose
lower-cased extension is empty, otherwise classify, ensure the category
folder exists and move the file.  The result is the directory state
after the iteration, the move logged on line 78 (if any), and the
thrown error (if any).  When the rename throws after a successful
mkdir, the created folder persists in the returned state, as on a real
filesystem. -/
def processItem (faults : Faults) (dirPath : String) (d : List Item) (item : String) :
    List Item × Option Move × Option FsErrorCode :=
  match faults.statFail item with
  | some e => (d, none, some e)
  | none =>
    match findItem d item with
    | none => (d, none, some FsErrorCode.ENOENT)
    | some it =>
      if it.isDir || item == "main.js" then (d, none, none)
      else if fileExtOf item = "" then (d, none, none)
      else
        match faults.mkdirFail (getDestinationFolder (fileExtOf item)) with
        | some e => (d, none, some e)
        | none =>
          match mkdirRecursive d (getDestinationFolder (fileExtOf item)) with
          | Except.error e => (d, none, some e)
          | Except.ok d1 =>
            match faults.renameFail item with
            | some e => (d1, none, some e)
            | none =>
              (renameIntoFolder d1 (getDestinationFolder (fileExtOf item)) item,
               some (Move.mk item (getDestinationFolder (fileExtOf item))
                 (pathJoin (pathJoin dirPath (getDestinationFolder (fileExtOf item))) item)),
               none)

/-- Observable outcome of one `organizeDirectory` call: final directory
state, the moves logged on stdout, the entries whose stat call was
issued, and the error caught on line 82 (if any). -/
structure RunResult where
  dir : List Item
  moves : List Move
  statted : List String
  error : Option FsErrorCode
deriving DecidableEq, Repr

/-- The entry loop over the snapshot returned by `fs.readdir`: the first
thrown error aborts the remaining iterations (the `try` of line 49 wraps
the whole loop). -/
def runItems (faults : Faults) (dirPath : String) (d : List Item) :
    List String → RunResult
  | [] => ⟨d, [], [], none⟩
  | n :: rest =>
    match processItem faults dirPath d n with
    | (d1, _, some e) => ⟨d1, [], [n], some e⟩
    | (d1, mv, none) =>
      let r := runItems faults dirPath d1 rest
      ⟨r.dir, mv.toList ++ r.moves, n :: r.statted, r.error⟩

/-- `organizeDirectory` of lines 46-88: list the directory once (a
listing failure is caught with nothing done), then run the loop over the
snapshot of names. -/
def organizeDirectory (faults : Faults) (dirPath : String) (d : List Item) : RunResult :=
  match faults.readdirFail with
  | some e => ⟨d, [], [], some e⟩
  | none => runItems faults dirPath d (d.map Item.name)

/-- One line printed to standard error by the catch block of lines
82-87: the error report of line 83, or the check-the-path hint of
line 85. -/
inductive ErrLine
  | report (c : FsErrorCode)
  | pathHint
deriving DecidableEq, Repr

/-- Whether a stderr line is the generic error report of line 83. -/
def isReport : ErrLine → Bool
  | ErrLine.report _ => true
  | ErrLine.pathHint => false

/-- Standard-error output of `organizeDirectory`: nothing on success;
on a caught error, the report of line 83 followed by the hint of line 85
exactly when the error code is `ENOENT`. -/
def stderrOf : Option FsErrorCode → List ErrLine
  | none => []
  | some c =>
    ErrLine.report c :: (if c = FsErrorCode.ENOENT then [ErrLine.pathHint] else [])

/-- Model of `path.resolve`: the argument is taken as already absolute
(resolution against the working directory is environment state outside
the model). -/
def pathResolve (p : String) : String :=
  p

/-- Observable outcome of the whole process (the IIFE of lines 92-107):
the exit code and the organizer run, when one was started. -/
structure MainResult where
  exitCode : Nat
  run : Option RunResult
deriving DecidableEq, Repr

/-- The entry point, lines 92-107: without an argument the process calls
`process.exit(1)`; with one it awaits `organizeDirectory`, whose catch
block swallows every error, so the process then terminates normally with
exit code 0. -/
def jsMain (argv2 : Option String) (faults : Faults) (d : List Item) : MainResult :=
  match argv2 with
  | none => ⟨1, none⟩
  | some p => ⟨0, some (organizeDirectory faults (pathResolve p) d)⟩

/-- A fault oracle whose only failure is the initial listing, with the
path-not-found code, as when the target directory does not exist. -/
def readdirENOENTFaults : Faults :=
  ⟨some FsErrorCode.ENOENT, fun _ => none, fun _ => none, fun _ => none⟩


/-- The listing of top-level names, as `fs.readdir` returns it. -/
def names (d : List Item) : List String :=
  d.map Item.name

/-- An entry the loop never moves: a directory, the script itself, or a
file whose lower-cased extension is empty. -/
def skippable (it : Item) : Prop :=
  it.isDir = true ∨ it.name = "main.js" ∨ fileExtOf it.name = ""

/-- A folder `f` of the directory that holds a file `x`. -/
def dirHasFile (d : List Item) (f x : String) : Prop :=
  ∃ it ∈ d, it.name = f ∧ it.isDir = true ∧ x ∈ it.files

/-- Example directory for the C5 witness. -/
def egDirC5 : List Item :=
  [Item.mk "backup" true ["x.jpg"], Item.mk "main.js" false [], Item.mk "a.txt" false []]

/-- Example directory and faults for the C3 witness: the rename of
`b.txt` fails with a permission error after `a.jpg` was already moved. -/
def egDirC3 : List Item :=
  [Item.mk "a.jpg" false [], Item.mk "b.txt" false [], Item.mk "c.png" false []]

/-- Fault oracle for the C3 witness. -/
def egFaultsC3 : Faults :=
  ⟨none, fun _ => none, fun _ => none,
   fun n => if n == "b.txt" then some FsErrorCode.EACCES else none⟩

/-- A folder name `f` present as a top-level directory of `d`. -/
def isDirIn (d : List Item) (f : String) : Prop :=
  ∃ it ∈ d, it.name = f ∧ it.isDir = true

/-- The files contributed by one top-level entry: the files inside a
directory, tagged with the directory's name, or the entry itself as a
top-level file, tagged `none`. -/
def fileEntries (it : Item) : List (Option String × String) :=
  if it.isDir then it.files.map (fun x => (some it.name, x)) else [(none, it.name)]

/-- All files of the directory state, with their location. -/
def allFiles : List Item → List (Option String × String)
  | [] => []
  | it :: d => fileEntries it ++ allFiles d

/-- All files of the directory state, as a multiset. -/
def allFilesM (d : List Item) : Multiset (Option String × String) :=
  (allFiles d : List (Option String × String))

/-- The folder a run sent a given top-level file name to, if any
(first matching move). -/
def moveTargetOf (moves : List Move) (n : String) : Option String :=
  (moves.find? (fun mv => mv.name == n)).map Move.folder

/-- Where a file ends up according to the move log: a top-level file
that was moved is now under its destination folder; everything else
stays where it was. -/
def relocateBy (moves : List Move) : Option String × String → Option String × String
  | (none, n) =>
      match moveTargetOf moves n with
      | some f => (some f, n)
      | none => (none, n)
  | (some g, x) => (some g, x)

/-- Precondition of C10: no logged move's destination was already
occupied before the run — the destination folder, when it pre-exists as
a directory, does not already contain a file with the moved name. -/
def OccFree (d : List Item) (moves : List Move) : Prop :=
  ∀ mv ∈ moves, ∀ it ∈ d, it.name = mv.folder → it.isDir = true → mv.name ∉ it.files

instance (d : List Item) (moves : List Move) : Decidable (OccFree d moves) := by
  unfold OccFree
  infer_instance

/-- Example directory for the C10 witness. -/
def egDirC10 : List Item :=
  [Item.mk "a.jpg" false [], Item.mk "notes" false [], Item.mk "docs" true ["x.txt"]]

/-- Example directory for the C9 witness: one file whose category folder
does not exist yet, one whose category folder pre-exists. -/
def egDirC9 : List Item :=
  [Item.mk "x.jpg" false [], Item.mk "documentos" true [], Item.mk "a.txt" false []]

/-- Example directory for the C8 witness: one movable file, one
extension-less file, one subfolder. -/
def egDirC8 : List Item :=
  [Item.mk "photo.JPG" false [], Item.mk "run" false [], Item.mk "backup" true ["old.txt"]]

/-- Example directory for the C6 witness. -/
def egDirC6 : List Item :=
  [Item.mk ".gitignore" false [], Item.mk "README" false [], Item.mk "a.txt" false []]

end FileOrganizer

namespace FileOrganizer

theorem findFolder_eq_find (ext : String) :
    ∀ L : List (String × List String),
      findFolder ext L =
        (match L.find? (fun p => p.2.contains ext) with
         | some p => p.1
         | none => "outros")
  | [] => rfl
  | (folder, exts) :: rest => by
      by_cases h : ext ∈ exts
      · simp [findFolder, List.find?, h]
      · simp [findFolder, List.find?, h, findFolder_eq_find ext rest]

theorem findFolder_mem_or_fallback (ext : String) :
    ∀ L : List (String × List String),
      (∃ p ∈ L, findFolder ext L = p.1) ∨ findFolder ext L = "outros"
  | [] => Or.inr rfl
  | (folder, exts) :: rest => by
      by_cases h : ext ∈ exts
      · exact Or.inl ⟨(folder, exts), by simp, by simp [findFolder, h]⟩
      · rcases findFolder_mem_or_fallback ext rest with ⟨p, hp, hep⟩ | hout
        · exact Or.inl ⟨p, by simp [hp], by simpa [findFolder, h] using hep⟩
        · exact Or.inr (by simpa [findFolder, h] using hout)

theorem toNat_ofNat_valid (n : Nat) (h : n.isValidChar) : (Char.ofNat n).toNat = n := by
  simp [Char.ofNat, h, Char.ofNatAux, Char.toNat, UInt32.toNat, BitVec.toNat_ofNatLt]

theorem jsToLower_dot_iff (c : Char) : jsToLower c = '.' ↔ c = '.' := by
  constructor
  · intro h
    by_cases hu : 'A' ≤ c ∧ c ≤ 'Z'
    · exfalso
      have h65 : 65 ≤ c.toNat := hu.1
      have h90 : c.toNat ≤ 90 := hu.2
      have hv : (c.toNat + 32).isValidChar := Or.inl (by omega)
      rw [jsToLower, if_pos hu] at h
      have := congrArg Char.toNat h
      rw [toNat_ofNat_valid _ hv] at this
      have hdot : ('.' : Char).toNat = 46 := rfl
      omega
    · rwa [jsToLower, if_neg hu] at h
  · intro h
    subst h
    decide

theorem jsToLower_ne_dot (c : Char) : (jsToLower c != '.') = (c != '.') := by
  by_cases h : c = '.'
  · subst h; decide
  · have h' : jsToLower c ≠ '.' := fun hh => h ((jsToLower_dot_iff c).mp hh)
    have t1 : (jsToLower c != '.') = true := by simpa using h'
    have t2 : (c != '.') = true := by simpa using h
    rw [t1, t2]

theorem takeWhile_ne_dot_map (cs : List Char) :
    (cs.map jsToLower).takeWhile (fun c => c != '.') =
      (cs.takeWhile (fun c => c != '.')).map jsToLower := by
  induction cs with
  | nil => rfl
  | cons a l ih =>
      by_cases h : a = '.'
      · subst h
        have h1 : (('.' : Char) != '.') = false := by decide
        have h2 : (jsToLower '.' != '.') = false := by decide
        simp [List.takeWhile_cons, h1, h2]
      · have h1 : (a != '.') = true := by simpa using h
        have h2 : (jsToLower a != '.') = true := by rw [jsToLower_ne_dot]; exact h1
        simp [List.takeWhile_cons, h1, h2, ih]

theorem map_eq_dotdot (cs : List Char) (h : cs.map jsToLower = ['.', '.']) :
    cs = ['.', '.'] := by
  cases cs with
  | nil => simp at h
  | cons a t =>
      cases t with
      | nil => simp at h
      | cons b t2 =>
          cases t2 with
          | nil =>
              simp only [List.map_cons, List.map_nil, List.cons.injEq, and_true] at h
              rw [(jsToLower_dot_iff a).mp h.1, (jsToLower_dot_iff b).mp h.2]
          | cons c t3 => simp at h

theorem extnameCore_map (cs : List Char) :
    extnameCore (cs.map jsToLower) = (extnameCore cs).map jsToLower := by
  have htw : (cs.map jsToLower).reverse.takeWhile (fun c => c != '.') =
      (cs.reverse.takeWhile (fun c => c != '.')).map jsToLower := by
    rw [← List.map_reverse, takeWhile_ne_dot_map]
  rw [extnameCore, extnameCore, htw, List.length_map, List.length_map]
  by_cases h1 : (cs.reverse.takeWhile (fun c => c != '.')).length = cs.length
  · simp [h1]
  · by_cases h2 : (cs.reverse.takeWhile (fun c => c != '.')).length + 1 = cs.length
    · simp [h1, h2]
    · by_cases h3 : cs = ['.', '.']
      · subst h3
        have : (['.', '.'].map jsToLower) = ['.', '.'] := by decide
        rw [this]
        simp [h1, h2]
      · have h3' : ¬ cs.map jsToLower = ['.', '.'] := fun hh => h3 (map_eq_dotdot cs hh)
        have hdot : jsToLower '.' = '.' := by decide
        simp only [h1, h2, h3, h3', if_false, List.map_cons, hdot, List.map_reverse]

theorem fileExtOf_map_eq (n1 n2 : String)
    (h : n1.data.map jsToLower = n2.data.map jsToLower) :
    fileExtOf n1 = fileExtOf n2 := by
  have e1 : (fileExtOf n1).data = (extnameCore n1.data).map jsToLower := rfl
  have e2 : (fileExtOf n2).data = (extnameCore n2.data).map jsToLower := rfl
  apply String.ext
  rw [e1, e2, ← extnameCore_map, ← extnameCore_map, h]

/-- Claim C1: the Category Classifier is a total pure function: it agrees
with the spec-side first-match search over the table in declared order,
returns the fallback `"outros"` exactly when no category's extension set
contains the input, and always returns either a table category name or
`"outros"`. -/
theorem C1_classifier_first_match (ext : String) :
    getDestinationFolder ext = specFirstCategory ext ∧
    ((∀ p ∈ FOLDER_MAPPING, ext ∉ p.2) → getDestinationFolder ext = "outros") ∧
    ((∃ p ∈ FOLDER_MAPPING, getDestinationFolder ext = p.1) ∨
      getDestinationFolder ext = "outros") := by
  refine ⟨findFolder_eq_find ext FOLDER_MAPPING, ?_, findFolder_mem_or_fallback ext FOLDER_MAPPING⟩
  intro hnone
  have hfind : FOLDER_MAPPING.find? (fun p => p.2.contains ext) = none := by
    rw [List.find?_eq_none]
    intro p hp
    simpa using hnone p hp
  rw [getDestinationFolder, findFolder_eq_find, hfind]

/-- Witness for C1 at the concrete unlisted extension `".xyz"`. -/
theorem C1_classifier_first_match_witness :
    getDestinationFolder ".xyz" = specFirstCategory ".xyz" ∧
    getDestinationFolder ".xyz" = "outros" :=
  ⟨(C1_classifier_first_match ".xyz").1,
   (C1_classifier_first_match ".xyz").2.1 (by decide)⟩

/-- Claim C7: classification is case-insensitive in the extension's
letters.  Two entry names whose characters agree up to ASCII case
(equal images under `jsToLower`, the model of the `toLowerCase` call on
line 63) yield the same extracted lower-cased extension, hence the same
destination category, and one is skipped as extension-less exactly when
the other is. -/
theorem C7_case_insensitive (n1 n2 : String)
    (h : n1.data.map jsToLower = n2.data.map jsToLower) :
    fileExtOf n1 = fileExtOf n2 ∧
    getDestinationFolder (fileExtOf n1) = getDestinationFolder (fileExtOf n2) ∧
    (fileExtOf n1 = "" ↔ fileExtOf n2 = "") := by
  have he := fileExtOf_map_eq n1 n2 h
  exact ⟨he, by rw [he], by rw [he]⟩

/-- Witness for C7 at the concrete names `"photo.JPG"` and
`"photo.jpg"`. -/
theorem C7_case_insensitive_witness :
    ("photo.JPG".data.map jsToLower = "photo.jpg".data.map jsToLower) ∧
    getDestinationFolder (fileExtOf "photo.JPG") =
      getDestinationFolder (fileExtOf "photo.jpg") :=
  ⟨by decide, (C7_case_insensitive "photo.JPG" "photo.jpg" (by decide)).2.1⟩

end FileOrganizer


namespace FileOrganizer

/-- Claim C4: when the initial listing fails with a path-not-found error,
the catch block prints the generic report and, the code being `ENOENT`,
also the specific check-the-path hint; nothing has been mutated: the
directory state is unchanged, no move was performed, and no entry was
even statted. -/
theorem C4_listing_enoent (faults : Faults) (p : String) (d : List Item)
    (h : faults.readdirFail = some FsErrorCode.ENOENT) :
    (organizeDirectory faults p d).dir = d ∧
    (organizeDirectory faults p d).moves = [] ∧
    (organizeDirectory faults p d).statted = [] ∧
    stderrOf (organizeDirectory faults p d).error =
      [ErrLine.report FsErrorCode.ENOENT, ErrLine.pathHint] := by
  rw [organizeDirectory, h]
  exact ⟨rfl, rfl, rfl, rfl⟩

/-- Witness for C4 at a concrete one-file directory. -/
theorem C4_listing_enoent_witness :
    readdirENOENTFaults.readdirFail = some FsErrorCode.ENOENT ∧
    (organizeDirectory readdirENOENTFaults "/missing" [Item.mk "a.txt" false []]).dir =
      [Item.mk "a.txt" false []] ∧
    (organizeDirectory readdirENOENTFaults "/missing" [Item.mk "a.txt" false []]).moves = [] :=
  ⟨rfl, (C4_listing_enoent readdirENOENTFaults "/missing" [Item.mk "a.txt" false []] rfl).1,
    (C4_listing_enoent readdirENOENTFaults "/missing" [Item.mk "a.txt" false []] rfl).2.1⟩

/-- Claim C2 counterexample: with an existing argument and a listing
that fails with `ENOENT`, an error is reported on standard error, yet
the process terminates with exit code 0, not 1 — `organizeDirectory`
catches the error without rethrowing and nothing calls
`process.exit(1)` on that path. -/
theorem C2_exit_code_counterexample :
    (jsMain (some "/missing") readdirENOENTFaults []).run =
      some (RunResult.mk [] [] [] (some FsErrorCode.ENOENT)) ∧
    (jsMain (some "/missing") readdirENOENTFaults []).exitCode = 0 :=
  ⟨rfl, rfl⟩

/-- Claim C2 (amended): if any error occurs during organization, an
error message is printed to standard error, but the process terminates
with exit code 0; exit code 1 is produced only for the missing-argument
case. -/
theorem C2_error_reporting (p : String) (faults : Faults) (d : List Item)
    (r : RunResult) (c : FsErrorCode)
    (_hr : (jsMain (some p) faults d).run = some r)
    (he : r.error = some c) :
    (jsMain (some p) faults d).exitCode = 0 ∧
    (stderrOf r.error).countP isReport = 1 ∧
    (jsMain none faults d).exitCode = 1 := by
  refine ⟨rfl, ?_, rfl⟩
  rw [he]
  cases c <;> rfl

/-- Witness for C2 (amended) at the counterexample input. -/
theorem C2_error_reporting_witness :
    (jsMain (some "/missing") readdirENOENTFaults []).exitCode = 0 ∧
    (stderrOf (RunResult.mk [] [] [] (some FsErrorCode.ENOENT)).error).countP isReport = 1 ∧
    (jsMain none readdirENOENTFaults []).exitCode = 1 :=
  C2_error_reporting "/missing" readdirENOENTFaults []
    (RunResult.mk [] [] [] (some FsErrorCode.ENOENT)) FsErrorCode.ENOENT rfl rfl

end FileOrganizer

namespace FileOrganizer

theorem findItem_some {d : List Item} {n : String} {it : Item}
    (h : findItem d n = some it) : it ∈ d ∧ it.name = n := by
  refine ⟨List.mem_of_find?_eq_some h, ?_⟩
  have h2 := List.find?_some h
  simpa using h2

theorem findItem_self {d : List Item} {it : Item}
    (hnd : (names d).Nodup) (hm : it ∈ d) : findItem d it.name = some it := by
  induction d with
  | nil => cases hm
  | cons a t ih =>
      rw [names, List.map_cons, List.nodup_cons] at hnd
      rcases List.mem_cons.mp hm with rfl | hm'
      · simp [findItem, List.find?]
      · have hb : (a.name == it.name) = false := by
          rw [beq_eq_false_iff_ne]
          intro he
          exact hnd.1 (he ▸ List.mem_map_of_mem Item.name hm')
        have hrec := ih hnd.2 hm'
        rw [findItem] at hrec ⊢
        simp [List.find?_cons, hb, hrec]

theorem name_unique {d : List Item} {it1 it2 : Item}
    (hnd : (names d).Nodup) (h1 : it1 ∈ d) (h2 : it2 ∈ d)
    (he : it1.name = it2.name) : it1 = it2 := by
  have f1 := findItem_self hnd h1
  have f2 := findItem_self hnd h2
  rw [he, f2] at f1
  exact (Option.some.injEq _ _ ▸ f1).symm

theorem mem_names {d : List Item} {n : String} :
    n ∈ names d ↔ ∃ it ∈ d, it.name = n := by
  simp [names]

theorem mkdirRecursive_ok {d d1 : List Item} {f : String}
    (h : mkdirRecursive d f = Except.ok d1) :
    (∃ it, findItem d f = some it ∧ it.isDir = true ∧ d1 = d) ∨
    (findItem d f = none ∧ d1 = d ++ [Item.mk f true []]) := by
  rw [mkdirRecursive] at h
  split at h
  next it hf =>
    split at h
    next hd =>
      injection h with h
      exact Or.inl ⟨it, hf, hd, h.symm⟩
    next hd => cases h
  next hf =>
    injection h with h
    exact Or.inr ⟨hf, h.symm⟩

/-- Full characterization of one successful loop iteration: either the
entry is skipped (directory, `main.js`, or empty extension) and nothing
changes, or it is a movable file and the state records the mkdir and the
rename. -/
theorem processItem_ok {faults : Faults} {p : String} {d d' : List Item}
    {n : String} {mv : Option Move}
    (h : processItem faults p d n = (d', mv, none)) :
    faults.statFail n = none ∧
    ∃ it, findItem d n = some it ∧
      ((d' = d ∧ mv = none ∧ (it.isDir = true ∨ n = "main.js" ∨ fileExtOf n = "")) ∨
       (∃ d1, it.isDir = false ∧ n ≠ "main.js" ∧ fileExtOf n ≠ "" ∧
         mkdirRecursive d (getDestinationFolder (fileExtOf n)) = Except.ok d1 ∧
         d' = renameIntoFolder d1 (getDestinationFolder (fileExtOf n)) n ∧
         mv = some (Move.mk n (getDestinationFolder (fileExtOf n))
           (pathJoin (pathJoin p (getDestinationFolder (fileExtOf n))) n)))) := by
  rw [processItem] at h
  split at h
  next e hs => simp at h
  next hs =>
  refine ⟨hs, ?_⟩
  split at h
  next hf => simp at h
  next it hf =>
  refine ⟨it, hf, ?_⟩
  split at h
  next hskip =>
    rw [Prod.mk.injEq, Prod.mk.injEq] at h
    refine Or.inl ⟨h.1.symm, h.2.1.symm, ?_⟩
    have hskip' : it.isDir = true ∨ (n == "main.js") = true := by
      simpa using hskip
    rcases hskip' with hd | hm
    · exact Or.inl hd
    · exact Or.inr (Or.inl (beq_iff_eq.mp hm))
  next hskip =>
  have hnotdir : it.isDir = false := by
    cases hd : it.isDir
    · rfl
    · exact absurd (by rw [hd]; rfl) hskip
  have hnotmain : n ≠ "main.js" := by
    intro he
    apply hskip
    rw [he]
    simp
  split at h
  next hext =>
    rw [Prod.mk.injEq, Prod.mk.injEq] at h
    exact Or.inl ⟨h.1.symm, h.2.1.symm, Or.inr (Or.inr hext)⟩
  next hext =>
  split at h
  next e hmkf => simp at h
  next hmkf =>
  split at h
  next e hmk => simp at h
  next d1 hmk =>
  split at h
  next e hrn => simp at h
  next hrn =>
  rw [Prod.mk.injEq, Prod.mk.injEq] at h
  exact Or.inr ⟨d1, hnotdir, hnotmain, hext, hmk, h.1.symm, h.2.1.symm⟩

/-- A failing iteration logs no move and leaves the directory unchanged,
except that a mkdir that succeeded before a failing rename persists. -/
theorem processItem_err {faults : Faults} {p : String} {d d' : List Item}
    {n : String} {mv : Option Move} {e : FsErrorCode}
    (h : processItem faults p d n = (d', mv, some e)) :
    mv = none ∧
    (d' = d ∨ ∃ d1, mkdirRecursive d (getDestinationFolder (fileExtOf n)) = Except.ok d1 ∧
      d' = d1) := by
  rw [processItem] at h
  split at h
  next e0 hs =>
    rw [Prod.mk.injEq, Prod.mk.injEq] at h
    exact ⟨h.2.1.symm, Or.inl h.1.symm⟩
  next hs =>
  split at h
  next hf =>
    rw [Prod.mk.injEq, Prod.mk.injEq] at h
    exact ⟨h.2.1.symm, Or.inl h.1.symm⟩
  next it hf =>
  split at h
  next hskip => simp at h
  next hskip =>
  split at h
  next hext => simp at h
  next hext =>
  split at h
  next e0 hmkf =>
    rw [Prod.mk.injEq, Prod.mk.injEq] at h
    exact ⟨h.2.1.symm, Or.inl h.1.symm⟩
  next hmkf =>
  split at h
  next e0 hmk =>
    rw [Prod.mk.injEq, Prod.mk.injEq] at h
    exact ⟨h.2.1.symm, Or.inl h.1.symm⟩
  next d1 hmk =>
  split at h
  next e0 hrn =>
    rw [Prod.mk.injEq, Prod.mk.injEq] at h
    exact ⟨h.2.1.symm, Or.inr ⟨d1, hmk, h.1.symm⟩⟩
  next hrn => simp at h

theorem findItem_none {d : List Item} {f : String}
    (h : findItem d f = none) : f ∉ names d := by
  intro hmem
  rcases mem_names.mp hmem with ⟨it, hit, hname⟩
  rw [findItem, List.find?_eq_none] at h
  exact h it hit (by simp [hname])

theorem insertFile_mem {files : List String} {n x : String}
    (h : x ∈ files) : x ∈ insertFile files n := by
  rw [insertFile]
  split
  · exact h
  · exact List.mem_append_left _ h

theorem insertFile_self (files : List String) (n : String) : n ∈ insertFile files n := by
  rw [insertFile]
  split
  next h => simpa using h
  next h => exact List.mem_append_right _ (List.mem_singleton.mpr rfl)

theorem names_removeTop (d : List Item) (n : String) :
    names (removeTop d n) = (names d).filter (fun m => !(m == n)) := by
  rw [removeTop, names, names,
    show (fun it : Item => !(it.name == n)) = ((fun m => !(m == n)) ∘ Item.name) from rfl,
    ← List.filter_map]

theorem names_insertIntoFolder (d : List Item) (f n : String) :
    names (insertIntoFolder d f n) = names d := by
  induction d with
  | nil => rfl
  | cons a t ih =>
      rw [insertIntoFolder, names, List.map_cons, List.map_cons]
      rw [insertIntoFolder, names] at ih
      rw [ih]
      split
      · rfl
      · rfl

theorem names_mkdir {d d1 : List Item} {f : String}
    (h : mkdirRecursive d f = Except.ok d1) :
    names d1 = names d ∨ (names d1 = names d ++ [f] ∧ f ∉ names d) := by
  rcases mkdirRecursive_ok h with ⟨it, -, -, rfl⟩ | ⟨hf, rfl⟩
  · exact Or.inl rfl
  · exact Or.inr ⟨by rw [names, List.map_append]; rfl, findItem_none hf⟩

theorem nodup_removeTop {d : List Item} {n : String}
    (hnd : (names d).Nodup) : (names (removeTop d n)).Nodup := by
  rw [names_removeTop]
  exact hnd.filter _

theorem nodup_rename {d : List Item} {f n : String}
    (hnd : (names d).Nodup) : (names (renameIntoFolder d f n)).Nodup := by
  rw [renameIntoFolder, names_insertIntoFolder]
  exact nodup_removeTop hnd

theorem nodup_mkdir {d d1 : List Item} {f : String}
    (hnd : (names d).Nodup) (h : mkdirRecursive d f = Except.ok d1) :
    (names d1).Nodup := by
  rcases names_mkdir h with he | ⟨he, hfresh⟩
  · rw [he]; exact hnd
  · rw [he]
    rw [List.nodup_append]
    refine ⟨hnd, List.nodup_singleton f, ?_⟩
    intro a ha haf
    rw [List.mem_singleton] at haf
    exact hfresh (haf ▸ ha)

theorem processItem_ok_nodup {faults : Faults} {p : String} {d d' : List Item}
    {n : String} {mv : Option Move}
    (hnd : (names d).Nodup)
    (h : processItem faults p d n = (d', mv, none)) : (names d').Nodup := by
  rcases processItem_ok h with ⟨-, it, -, ⟨rfl, -, -⟩ | ⟨d1, -, -, -, hmk, rfl, -⟩⟩
  · exact hnd
  · exact nodup_rename (nodup_mkdir hnd hmk)

theorem processItem_err_nodup {faults : Faults} {p : String} {d d' : List Item}
    {n : String} {mv : Option Move} {e : FsErrorCode}
    (hnd : (names d).Nodup)
    (h : processItem faults p d n = (d', mv, some e)) : (names d').Nodup := by
  rcases processItem_err h with ⟨-, rfl | ⟨d1, hmk, rfl⟩⟩
  · exact hnd
  · exact nodup_mkdir hnd hmk

theorem mem_removeTop {d : List Item} {n : String} {it : Item}
    (hit : it ∈ d) (hne : it.name ≠ n) : it ∈ removeTop d n := by
  rw [removeTop, List.mem_filter]
  exact ⟨hit, by simpa using hne⟩

theorem mem_mkdir {d d1 : List Item} {f : String} {it : Item}
    (h : mkdirRecursive d f = Except.ok d1) (hit : it ∈ d) : it ∈ d1 := by
  rcases mkdirRecursive_ok h with ⟨-, -, -, rfl⟩ | ⟨-, rfl⟩
  · exact hit
  · exact List.mem_append_left _ hit

/-- A surviving entry passes through the rename step: it keeps its name
and directory flag, its contents can only grow, and a plain file is kept
exactly as it was. -/
theorem rename_step_mem {d d1 : List Item} {f n : String} {it : Item}
    (hmk : mkdirRecursive d f = Except.ok d1)
    (hit : it ∈ d) (hne : it.name ≠ n) :
    ∃ it1 ∈ renameIntoFolder d1 f n, it1.name = it.name ∧ it1.isDir = it.isDir ∧
      (∀ x ∈ it.files, x ∈ it1.files) ∧ (it.isDir = false → it1 = it) := by
  have hit1 : it ∈ removeTop d1 n := mem_removeTop (mem_mkdir hmk hit) hne
  rw [renameIntoFolder, insertIntoFolder]
  by_cases hc : (it.name == f && it.isDir) = true
  · refine ⟨Item.mk it.name it.isDir (insertFile it.files n), ?_, rfl, rfl, ?_, ?_⟩
    · have hmem := List.mem_map_of_mem (fun it =>
        if it.name == f && it.isDir then Item.mk it.name it.isDir (insertFile it.files n)
        else it) hit1
      simpa only [hc, if_true] using hmem
    · exact fun x hx => insertFile_mem hx
    · intro hdf
      have hd : it.isDir = true := by
        have hc2 := hc
        simp only [Bool.and_eq_true] at hc2
        exact hc2.2
      rw [hdf] at hd
      cases hd
  · have hc' : (it.name == f && it.isDir) = false := eq_false_of_ne_true hc
    refine ⟨it, ?_, rfl, rfl, fun x hx => hx, fun _ => rfl⟩
    have hmem := List.mem_map_of_mem (fun it =>
      if it.name == f && it.isDir then Item.mk it.name it.isDir (insertFile it.files n)
      else it) hit1
    simpa only [hc', if_false] using hmem

/-- The moved file is recorded inside the destination folder by the
rename step. -/
theorem rename_step_target {d d1 : List Item} {f n : String}
    (hmk : mkdirRecursive d f = Except.ok d1) (hfn : f ≠ n) :
    ∃ it1 ∈ renameIntoFolder d1 f n, it1.name = f ∧ it1.isDir = true ∧ n ∈ it1.files := by
  have hdir : ∃ itf ∈ d1, itf.name = f ∧ itf.isDir = true := by
    rcases mkdirRecursive_ok hmk with ⟨itf, hff, hfd, rfl⟩ | ⟨-, rfl⟩
    · exact ⟨itf, (findItem_some hff).1, (findItem_some hff).2, hfd⟩
    · exact ⟨Item.mk f true [], List.mem_append_right _ (List.mem_singleton.mpr rfl), rfl, rfl⟩
  rcases hdir with ⟨itf, hitf, hfname, hfdir⟩
  have hitf1 : itf ∈ removeTop d1 n := mem_removeTop hitf (hfname ▸ hfn)
  rw [renameIntoFolder, insertIntoFolder]
  have hc : (itf.name == f && itf.isDir) = true := by
    simp [hfname, hfdir]
  refine ⟨Item.mk itf.name itf.isDir (insertFile itf.files n), ?_, hfname, hfdir, insertFile_self _ _⟩
  have hmem := List.mem_map_of_mem (fun it =>
    if it.name == f && it.isDir then Item.mk it.name it.isDir (insertFile it.files n)
    else it) hitf1
  simpa only [hc, if_true] using hmem

theorem getDestinationFolder_mem_categories (e : String) :
    getDestinationFolder e ∈
      ["imagens", "documentos", "videos", "audios", "arquivos_comprimidos",
       "codigo", "outros"] := by
  rcases findFolder_mem_or_fallback e FOLDER_MAPPING with ⟨p, hp, he⟩ | h
  · rw [getDestinationFolder, he]
    fin_cases hp <;> simp
  · rw [getDestinationFolder, h]
    simp

theorem getDestinationFolder_no_dot (e : String) :
    '.' ∉ (getDestinationFolder e).data := by
  have h := getDestinationFolder_mem_categories e
  simp only [List.mem_cons, List.not_mem_nil, or_false] at h
  rcases h with h | h | h | h | h | h | h <;> rw [h] <;> decide

theorem ext_has_dot {n : String} (h : fileExtOf n ≠ "") : '.' ∈ n.data := by
  by_contra hnd
  apply h
  have h0 : ∀ c ∈ n.data.reverse, (fun c => c != '.') c = true := by
    intro c hc
    have hcm : c ∈ n.data := List.mem_reverse.mp hc
    have hne : c ≠ '.' := fun he => hnd (he ▸ hcm)
    simpa using hne
  have h1 : n.data.reverse.takeWhile (fun c => c != '.') = n.data.reverse :=
    List.takeWhile_eq_self_iff.mpr h0
  have h2 : extnameCore n.data = [] := by
    rw [extnameCore, if_pos (by rw [h1, List.length_reverse])]
  show toLowerStr (extname n) = ""
  rw [extname, h2]
  rfl

theorem folder_ne_movable {e n : String} (hext : fileExtOf n ≠ "") :
    getDestinationFolder e ≠ n := by
  intro heq
  exact getDestinationFolder_no_dot e (heq ▸ ext_has_dot hext)


theorem mkdir_preserves_dirHasFile {d d1 : List Item} {g f x : String}
    (hmk : mkdirRecursive d g = Except.ok d1)
    (hdf : dirHasFile d f x) : dirHasFile d1 f x := by
  rcases hdf with ⟨it, hit, h1, h2, h3⟩
  exact ⟨it, mem_mkdir hmk hit, h1, h2, h3⟩

theorem processItem_err_preserves_dirHasFile {faults : Faults} {p : String}
    {d d' : List Item} {n : String} {mv : Option Move} {e : FsErrorCode}
    (h : processItem faults p d n = (d', mv, some e))
    (hdf : dirHasFile d f x) : dirHasFile d' f x := by
  rcases processItem_err h with ⟨-, rfl | ⟨d1, hmk, rfl⟩⟩
  · exact hdf
  · exact mkdir_preserves_dirHasFile hmk hdf

theorem processItem_preserves_dirHasFile {faults : Faults} {p : String}
    {d d' : List Item} {n : String} {mv : Option Move} {f x : String}
    (hnd : (names d).Nodup)
    (h : processItem faults p d n = (d', mv, none))
    (hdf : dirHasFile d f x) : dirHasFile d' f x := by
  rcases processItem_ok h with ⟨-, it0, hf0, hcase⟩
  rcases hcase with ⟨rfl, -, -⟩ | ⟨d1, hdir0, -, -, hmk, rfl, -⟩
  · exact hdf
  · rcases hdf with ⟨itf, hitf, hfname, hfdir, hx⟩
    have hne : itf.name ≠ n := by
      intro he
      have h0 := findItem_some hf0
      have heq : itf = it0 := name_unique hnd hitf h0.1 (he.trans h0.2.symm)
      rw [heq, hdir0] at hfdir
      cases hfdir
    rcases rename_step_mem hmk hitf hne with ⟨it1, hit1, hname1, hisdir1, hfiles1, -⟩
    exact ⟨it1, hit1, hname1.trans hfname, hisdir1.trans hfdir, hfiles1 x hx⟩

/-- Skipped entries (directories, `main.js`, extension-less files) leave
the directory unchanged and log no move. -/
theorem processItem_skip {faults : Faults} {p : String} {d : List Item}
    {n : String} {it : Item}
    (hs : faults.statFail n = none) (hf : findItem d n = some it)
    (hsk : it.isDir = true ∨ n = "main.js" ∨ fileExtOf n = "") :
    processItem faults p d n = (d, none, none) := by
  simp only [processItem, hs, hf]
  rcases hsk with hd | hm | hx
  · rw [if_pos (by rw [hd]; rfl)]
  · rw [if_pos (by rw [hm]; simp)]
  · by_cases hc : (it.isDir || n == "main.js") = true
    · rw [if_pos hc]
    · rw [if_neg hc, if_pos hx]

theorem runItems_nil (faults : Faults) (p : String) (d : List Item) :
    runItems faults p d [] = ⟨d, [], [], none⟩ :=
  rfl

theorem runItems_cons_error {faults : Faults} {p : String} {d d1 : List Item}
    {n : String} {mv : Option Move} {e : FsErrorCode} {rest : List String}
    (h : processItem faults p d n = (d1, mv, some e)) :
    runItems faults p d (n :: rest) = ⟨d1, [], [n], some e⟩ := by
  rw [runItems, h]

theorem runItems_cons_ok {faults : Faults} {p : String} {d d1 : List Item}
    {n : String} {mv : Option Move} {rest : List String}
    (h : processItem faults p d n = (d1, mv, none)) :
    runItems faults p d (n :: rest) =
      ⟨(runItems faults p d1 rest).dir,
       mv.toList ++ (runItems faults p d1 rest).moves,
       n :: (runItems faults p d1 rest).statted,
       (runItems faults p d1 rest).error⟩ := by
  rw [runItems, h]

/-- A skippable entry survives the whole loop: some entry with its name
and directory flag is still at the top level afterwards (a plain file
even survives unchanged), and no logged move carries its name. -/
theorem runItems_skippable (faults : Faults) (p : String) :
    ∀ (todo : List String) (d : List Item) (it : Item),
      (names d).Nodup → it ∈ d → skippable it →
      (∃ it2 ∈ (runItems faults p d todo).dir,
          it2.name = it.name ∧ it2.isDir = it.isDir ∧ (it.isDir = false → it2 = it)) ∧
      (∀ mv ∈ (runItems faults p d todo).moves, mv.name ≠ it.name)
  | [], d, it, hnd, hit, hsk => by
      rw [runItems_nil]
      exact ⟨⟨it, hit, rfl, rfl, fun _ => rfl⟩, fun mv h => absurd h (List.not_mem_nil mv)⟩
  | n :: rest, d, it, hnd, hit, hsk => by
      obtain ⟨⟨d1, mv, err⟩, hpi⟩ : ∃ r, processItem faults p d n = r := ⟨_, rfl⟩
      cases err with
      | some e =>
          rw [runItems_cons_error hpi]
          refine ⟨?_, fun mv h => absurd h (List.not_mem_nil mv)⟩
          rcases processItem_err hpi with ⟨-, rfl | ⟨dmk1, hmk, rfl⟩⟩
          · exact ⟨it, hit, rfl, rfl, fun _ => rfl⟩
          · exact ⟨it, mem_mkdir hmk hit, rfl, rfl, fun _ => rfl⟩
      | none =>
          rw [runItems_cons_ok hpi]
          have hnd1 : (names d1).Nodup := processItem_ok_nodup hnd hpi
          rcases processItem_ok hpi with ⟨-, it0, hf0, hcase⟩
          rcases hcase with ⟨hdd, hmv, -⟩ | ⟨dmk, hdir0, hmain0, hext0, hmk, hd1, hmvsome⟩
          · subst hdd
            subst hmv
            have IH := runItems_skippable faults p rest _ it hnd hit hsk
            simpa using IH
          · have h0 := findItem_some hf0
            have hneq : it.name ≠ n := by
              intro he
              have heq : it = it0 := name_unique hnd hit h0.1 (he.trans h0.2.symm)
              rcases hsk with hd | hm | hx
              · rw [heq, hdir0] at hd
                cases hd
              · exact hmain0 ((he.symm.trans hm))
              · exact hext0 (he ▸ hx)
            subst hd1
            rcases rename_step_mem hmk hit hneq with ⟨it1, hit1, hname1, hisdir1, hfiles1, hfeq⟩
            have hsk1 : skippable it1 := by
              rcases hsk with hd | hm | hx
              · exact Or.inl (hisdir1.trans hd)
              · exact Or.inr (Or.inl (hname1.trans hm))
              · refine Or.inr (Or.inr ?_)
                rw [hname1]
                exact hx
            have IH := runItems_skippable faults p rest _ it1 hnd1 hit1 hsk1
            constructor
            · rcases IH.1 with ⟨it2, hit2, hn2, hd2, hfe2⟩
              refine ⟨it2, by simpa using hit2, hn2.trans hname1, hd2.trans hisdir1, ?_⟩
              intro hdf
              exact (hfe2 (hisdir1.trans hdf)).trans (hfeq hdf)
            · intro mv' hmv'
              rw [hmvsome] at hmv'
              simp only [Option.toList_some, List.cons_append, List.nil_append,
                List.mem_cons] at hmv'
              rcases hmv' with rfl | hmem
              · exact fun he => hneq he.symm
              · rw [← hname1]
                exact IH.2 mv' hmem

end FileOrganizer

namespace FileOrganizer

/-- Claim C5: a directory entry, and the entry named `main.js` (the
running script itself), are never moved by a run under any fault
pattern: no logged move carries their name, an entry with the same name
and directory flag is still at the top level afterwards, and the loop
iteration for such an entry leaves the directory state unchanged and
creates no folder. -/
theorem C5_skip_dirs_and_self (faults : Faults) (p : String) (d : List Item) (it : Item)
    (hnd : (names d).Nodup) (hit : it ∈ d)
    (hsk : it.isDir = true ∨ it.name = "main.js") :
    (∃ it2 ∈ (organizeDirectory faults p d).dir,
        it2.name = it.name ∧ it2.isDir = it.isDir) ∧
    (∀ mv ∈ (organizeDirectory faults p d).moves, mv.name ≠ it.name) ∧
    (faults.statFail it.name = none →
      processItem faults p d it.name = (d, none, none)) := by
  have hsk' : skippable it := by
    rcases hsk with h | h
    · exact Or.inl h
    · exact Or.inr (Or.inl h)
  have hstep : faults.statFail it.name = none →
      processItem faults p d it.name = (d, none, none) := fun hs =>
    processItem_skip hs (findItem_self hnd hit) hsk'
  rw [organizeDirectory]
  cases hrd : faults.readdirFail with
  | some e =>
      exact ⟨⟨it, hit, rfl, rfl⟩, fun mv h => absurd h (List.not_mem_nil mv), hstep⟩
  | none =>
      have hmain := runItems_skippable faults p (names d) d it hnd hit hsk'
      rcases hmain.1 with ⟨it2, hit2, hn2, hd2, -⟩
      exact ⟨⟨it2, hit2, hn2, hd2⟩, hmain.2, hstep⟩


/-- Witness for C5: in a run over a directory containing the subfolder
`backup` (with a movable-looking name inside) and the script `main.js`,
the subfolder survives and no move names it. -/
theorem C5_skip_dirs_and_self_witness :
    (∃ it2 ∈ (organizeDirectory noFaults "/t" egDirC5).dir,
        it2.name = "backup" ∧ it2.isDir = true) ∧
    (∀ mv ∈ (organizeDirectory noFaults "/t" egDirC5).moves, mv.name ≠ "backup") ∧
    (noFaults.statFail "backup" = none →
      processItem noFaults "/t" egDirC5 "backup" = (egDirC5, none, none)) :=
  C5_skip_dirs_and_self noFaults "/t" egDirC5 (Item.mk "backup" true ["x.jpg"])
    (by decide) (by decide) (Or.inl rfl)

/-- Claim C6: a plain file whose name yields an empty extension under
the path-extension convention (no dot, or a pure dotfile such as
`.gitignore`) is left untouched in place: it is still at the top level
unchanged after any run, no logged move carries its name, and its loop
iteration changes nothing. -/
theorem C6_skip_no_extension (faults : Faults) (p : String) (d : List Item) (it : Item)
    (hnd : (names d).Nodup) (hit : it ∈ d)
    (hfile : it.isDir = false) (hext : extname it.name = "") :
    it ∈ (organizeDirectory faults p d).dir ∧
    (∀ mv ∈ (organizeDirectory faults p d).moves, mv.name ≠ it.name) ∧
    (faults.statFail it.name = none →
      processItem faults p d it.name = (d, none, none)) := by
  have hext' : fileExtOf it.name = "" := by
    rw [fileExtOf, hext]
    rfl
  have hsk' : skippable it := Or.inr (Or.inr hext')
  have hstep : faults.statFail it.name = none →
      processItem faults p d it.name = (d, none, none) := fun hs =>
    processItem_skip hs (findItem_self hnd hit) hsk'
  rw [organizeDirectory]
  cases hrd : faults.readdirFail with
  | some e =>
      exact ⟨hit, fun mv h => absurd h (List.not_mem_nil mv), hstep⟩
  | none =>
      have hmain := runItems_skippable faults p (names d) d it hnd hit hsk'
      rcases hmain.1 with ⟨it2, hit2, -, -, hfe⟩
      exact ⟨(hfe hfile) ▸ hit2, hmain.2, hstep⟩

theorem runItems_preserves_dirHasFile (faults : Faults) (p : String) :
    ∀ (todo : List String) (d : List Item) (f x : String),
      (names d).Nodup → dirHasFile d f x →
      dirHasFile (runItems faults p d todo).dir f x
  | [], d, f, x, hnd, hdf => by
      rw [runItems_nil]
      exact hdf
  | n :: rest, d, f, x, hnd, hdf => by
      obtain ⟨⟨d1, mv, err⟩, hpi⟩ : ∃ r, processItem faults p d n = r := ⟨_, rfl⟩
      cases err with
      | some e =>
          rw [runItems_cons_error hpi]
          exact processItem_err_preserves_dirHasFile hpi hdf
      | none =>
          rw [runItems_cons_ok hpi]
          exact runItems_preserves_dirHasFile faults p rest d1 f x
            (processItem_ok_nodup hnd hpi)
            (processItem_preserves_dirHasFile hnd hpi hdf)

/-- Every move logged by the loop is reflected in the final state: the
destination folder is a top-level directory holding the moved name. -/
theorem runItems_moves_recorded (faults : Faults) (p : String) :
    ∀ (todo : List String) (d : List Item),
      (names d).Nodup →
      ∀ mv ∈ (runItems faults p d todo).moves,
        dirHasFile (runItems faults p d todo).dir mv.folder mv.name
  | [], d, hnd => by
      rw [runItems_nil]
      intro mv h
      exact absurd h (List.not_mem_nil mv)
  | n :: rest, d, hnd => by
      obtain ⟨⟨d1, mvo, err⟩, hpi⟩ : ∃ r, processItem faults p d n = r := ⟨_, rfl⟩
      cases err with
      | some e =>
          rw [runItems_cons_error hpi]
          intro mv h
          exact absurd h (List.not_mem_nil mv)
      | none =>
          rw [runItems_cons_ok hpi]
          intro mv hmv
          have hnd1 : (names d1).Nodup := processItem_ok_nodup hnd hpi
          rcases List.mem_append.mp hmv with hl | hr
          · rcases processItem_ok hpi with ⟨-, it0, hf0, hcase⟩
            rcases hcase with ⟨-, rfl, -⟩ | ⟨dmk, -, -, hext0, hmk, rfl, rfl⟩
            · simp at hl
            · have hmveq : mv = Move.mk n (getDestinationFolder (fileExtOf n))
                  (pathJoin (pathJoin p (getDestinationFolder (fileExtOf n))) n) := by
                simpa using hl
              subst hmveq
              have hgne : getDestinationFolder (fileExtOf n) ≠ n := folder_ne_movable hext0
              rcases rename_step_target hmk hgne with ⟨it1, hit1, h1, h2, h3⟩
              exact runItems_preserves_dirHasFile faults p rest _ _ _ hnd1 ⟨it1, hit1, h1, h2, h3⟩
          · exact runItems_moves_recorded faults p rest d1 hnd1 mv hr

/-- When the loop fails, it has statted exactly a prefix of the listing
up to and including the failing entry, and every logged move comes from
an entry strictly before the failure. -/
theorem runItems_error_abort (faults : Faults) (p : String) :
    ∀ (todo : List String) (d : List Item) (c : FsErrorCode),
      (runItems faults p d todo).error = some c →
      ∃ k, k < todo.length ∧
        (runItems faults p d todo).statted = todo.take (k + 1) ∧
        ∀ mv ∈ (runItems faults p d todo).moves, mv.name ∈ todo.take k
  | [], d, c => by
      rw [runItems_nil]
      intro h
      cases h
  | n :: rest, d, c => by
      obtain ⟨⟨d1, mvo, err⟩, hpi⟩ : ∃ r, processItem faults p d n = r := ⟨_, rfl⟩
      cases err with
      | some e =>
          rw [runItems_cons_error hpi]
          intro hc
          refine ⟨0, Nat.succ_pos _, rfl, ?_⟩
          intro mv h
          exact absurd h (List.not_mem_nil mv)
      | none =>
          rw [runItems_cons_ok hpi]
          intro herr
          obtain ⟨k, hk, hst, hmv⟩ := runItems_error_abort faults p rest d1 c herr
          refine ⟨k + 1, Nat.succ_lt_succ hk, ?_, ?_⟩
          · show n :: (runItems faults p d1 rest).statted = (n :: rest).take (k + 1 + 1)
            rw [List.take_succ_cons, hst]
          · intro mv hmv'
            rw [List.take_succ_cons]
            rcases List.mem_append.mp hmv' with hl | hr
            · rcases processItem_ok hpi with ⟨-, it0, -, hcase⟩
              rcases hcase with ⟨-, rfl, -⟩ | ⟨dmk, -, -, -, -, -, rfl⟩
              · simp at hl
              · have hmveq : mv = Move.mk n (getDestinationFolder (fileExtOf n))
                    (pathJoin (pathJoin p (getDestinationFolder (fileExtOf n))) n) := by
                  simpa using hl
                rw [hmveq]
                exact List.mem_cons_self _ _
            · exact List.mem_cons_of_mem _ (hmv mv hr)

theorem organizeDirectory_eq_run {faults : Faults} {p : String} {d : List Item}
    (h : faults.readdirFail = none) :
    organizeDirectory faults p d = runItems faults p d (names d) := by
  rw [organizeDirectory, h]
  rfl

theorem mem_rename_inv {d : List Item} {f n : String} {it1 : Item}
    (h : it1 ∈ renameIntoFolder d f n) :
    it1.isDir = true ∨ (it1 ∈ d ∧ it1.name ≠ n) := by
  rw [renameIntoFolder, insertIntoFolder] at h
  rcases List.mem_map.mp h with ⟨it, hit, heq⟩
  have hit' : it ∈ d ∧ it.name ≠ n := by
    rw [removeTop, List.mem_filter] at hit
    exact ⟨hit.1, by simpa using hit.2⟩
  by_cases hc : (it.name == f && it.isDir) = true
  · rw [if_pos hc] at heq
    refine Or.inl ?_
    rw [← heq]
    have hc2 := hc
    simp only [Bool.and_eq_true] at hc2
    exact hc2.2
  · rw [if_neg hc] at heq
    exact Or.inr (heq ▸ hit')

theorem mem_mkdir_inv {d d1 : List Item} {f : String} {it : Item}
    (hmk : mkdirRecursive d f = Except.ok d1) (h : it ∈ d1) :
    it ∈ d ∨ it = Item.mk f true [] := by
  rcases mkdirRecursive_ok hmk with ⟨-, -, -, rfl⟩ | ⟨-, rfl⟩
  · exact Or.inl h
  · rcases List.mem_append.mp h with h1 | h1
    · exact Or.inl h1
    · exact Or.inr (List.mem_singleton.mp h1)

/-- After a successful run, every top-level entry of the final state is
skippable: a directory (pre-existing or created), the script, or an
extension-less file — everything movable has been moved away. -/
theorem runItems_settles (faults : Faults) (p : String) :
    ∀ (todo : List String) (d : List Item),
      (names d).Nodup →
      (∀ it ∈ d, it.name ∉ todo → skippable it) →
      (runItems faults p d todo).error = none →
      ∀ it2 ∈ (runItems faults p d todo).dir, skippable it2
  | [], d, hnd, hpre => by
      rw [runItems_nil]
      intro _herr it2 hit2
      exact hpre it2 hit2 (List.not_mem_nil _)
  | n :: rest, d, hnd, hpre => by
      obtain ⟨⟨d1, mvo, err⟩, hpi⟩ : ∃ r, processItem faults p d n = r := ⟨_, rfl⟩
      cases err with
      | some e =>
          rw [runItems_cons_error hpi]
          intro h
          cases h
      | none =>
          rw [runItems_cons_ok hpi]
          intro herr
          apply runItems_settles faults p rest d1 (processItem_ok_nodup hnd hpi) ?_ herr
          intro it1 hit1 hnotrest
          rcases processItem_ok hpi with ⟨-, it0, hf0, hcase⟩
          have h0 := findItem_some hf0
          rcases hcase with ⟨heq1, -, hsk0⟩ | ⟨dmk, hdir0, hmain0, hext0, hmk, heq1, -⟩
          · subst heq1
            by_cases hn : it1.name = n
            · have he : it1 = it0 := name_unique hnd hit1 h0.1 (hn.trans h0.2.symm)
              rw [he]
              rcases hsk0 with hd | hm | hx
              · exact Or.inl hd
              · exact Or.inr (Or.inl (h0.2.trans hm))
              · refine Or.inr (Or.inr ?_)
                rw [h0.2]
                exact hx
            · refine hpre it1 hit1 ?_
              intro hmem
              rcases List.mem_cons.mp hmem with he | hm
              · exact hn he
              · exact hnotrest hm
          · subst heq1
            rcases mem_rename_inv hit1 with hdir | ⟨hmem, hne⟩
            · exact Or.inl hdir
            · rcases mem_mkdir_inv hmk hmem with hmem2 | hnew
              · refine hpre it1 hmem2 ?_
                intro hmemtodo
                rcases List.mem_cons.mp hmemtodo with he | hm
                · exact hne he
                · exact hnotrest hm
              · exact Or.inl (by rw [hnew])

theorem find_of_mem_names {d : List Item} {n : String} (h : n ∈ names d) :
    ∃ it, findItem d n = some it ∧ it.name = n := by
  induction d with
  | nil => simp [names] at h
  | cons a t ih =>
      by_cases hb : (a.name == n) = true
      · refine ⟨a, ?_, beq_iff_eq.mp hb⟩
        rw [findItem]
        simp [List.find?_cons, hb]
      · have hb' : (a.name == n) = false := eq_false_of_ne_true hb
        have hn : n ∈ names t := by
          rw [names, List.map_cons, List.mem_cons] at h
          rcases h with he | hm
          · exact absurd (by simpa using he.symm) hb
          · exact hm
        obtain ⟨it, hf, hname⟩ := ih hn
        refine ⟨it, ?_, hname⟩
        rw [findItem] at hf ⊢
        simp [List.find?_cons, hb', hf]

/-- A run of the loop over entries that are all present and skippable
changes nothing, logs no move, and succeeds. -/
theorem runItems_noop (p : String) :
    ∀ (todo : List String) (d : List Item),
      (∀ n ∈ todo, ∃ it, findItem d n = some it ∧ skippable it) →
      runItems noFaults p d todo = ⟨d, [], todo, none⟩
  | [], d, hpre => by rw [runItems_nil]
  | n :: rest, d, hpre => by
      obtain ⟨it, hf, hsk⟩ := hpre n (List.mem_cons_self _ _)
      have hsk' : it.isDir = true ∨ n = "main.js" ∨ fileExtOf n = "" := by
        rcases hsk with hd | hm | hx
        · exact Or.inl hd
        · exact Or.inr (Or.inl ((findItem_some hf).2.symm.trans hm))
        · refine Or.inr (Or.inr ?_)
          rw [← (findItem_some hf).2]
          exact hx
      have hpi : processItem noFaults p d n = (d, none, none) :=
        processItem_skip rfl hf hsk'
      rw [runItems_cons_ok hpi,
        runItems_noop p rest d (fun m hm => hpre m (List.mem_cons_of_mem _ hm))]
      rfl

/-- Claim C3: when a stat, mkdir, or rename fails while processing some
entry (the listing itself having succeeded), the run aborts at that
entry: the stat calls cover exactly the listing prefix up to and
including the failing entry, every logged move comes from a strictly
earlier entry, exactly one generic error report is emitted on standard
error (at most one extra fixed hint line accompanies an `ENOENT`
report), and every move performed before the failure is still reflected
in the final directory state — the moved file sits in its destination
folder (no rollback). -/
theorem C3_abort_on_error (faults : Faults) (p : String) (d : List Item) (c : FsErrorCode)
    (hnd : (names d).Nodup) (hrd : faults.readdirFail = none)
    (herr : (organizeDirectory faults p d).error = some c) :
    (∃ k, k < (names d).length ∧
      (organizeDirectory faults p d).statted = (names d).take (k + 1) ∧
      ∀ mv ∈ (organizeDirectory faults p d).moves, mv.name ∈ (names d).take k) ∧
    (stderrOf (organizeDirectory faults p d).error).countP isReport = 1 ∧
    ∀ mv ∈ (organizeDirectory faults p d).moves,
      dirHasFile (organizeDirectory faults p d).dir mv.folder mv.name := by
  rw [organizeDirectory_eq_run hrd] at herr ⊢
  refine ⟨runItems_error_abort faults p (names d) d c herr, ?_,
    runItems_moves_recorded faults p (names d) d hnd⟩
  rw [herr]
  cases c <;> rfl

/-- Witness for C3: the failing run statted only `a.jpg` and `b.txt`,
moved only `a.jpg`, reported once, and `a.jpg` stays moved. -/
theorem C3_abort_on_error_witness :
    (∃ k, k < (names egDirC3).length ∧
      (organizeDirectory egFaultsC3 "/t" egDirC3).statted = (names egDirC3).take (k + 1) ∧
      ∀ mv ∈ (organizeDirectory egFaultsC3 "/t" egDirC3).moves,
        mv.name ∈ (names egDirC3).take k) ∧
    (stderrOf (organizeDirectory egFaultsC3 "/t" egDirC3).error).countP isReport = 1 ∧
    ∀ mv ∈ (organizeDirectory egFaultsC3 "/t" egDirC3).moves,
      dirHasFile (organizeDirectory egFaultsC3 "/t" egDirC3).dir mv.folder mv.name :=
  C3_abort_on_error egFaultsC3 "/t" egDirC3 FsErrorCode.EACCES (by decide) rfl (by decide)


theorem names_rename_subset {d : List Item} {f n m : String}
    (h : m ∈ names (renameIntoFolder d f n)) : m ∈ names d := by
  rw [renameIntoFolder, names_insertIntoFolder, names_removeTop, List.mem_filter] at h
  exact h.1

theorem names_rename_ne {d : List Item} {f n m : String}
    (h : m ∈ names (renameIntoFolder d f n)) : m ≠ n := by
  rw [renameIntoFolder, names_insertIntoFolder, names_removeTop, List.mem_filter] at h
  simpa using h.2

theorem dotted_ne_folder {n : String} (hdot : '.' ∈ n.data) (e : String) :
    n ≠ getDestinationFolder e := by
  intro heq
  exact getDestinationFolder_no_dot e (heq ▸ hdot)

theorem mkdir_folder_absent {d d2 : List Item} {e n : String}
    (hmk : mkdirRecursive d (getDestinationFolder e) = Except.ok d2)
    (hdot : '.' ∈ n.data) (h0 : n ∉ names d) : n ∉ names d2 := by
  rcases names_mkdir hmk with he | ⟨he, -⟩
  · rw [he]
    exact h0
  · rw [he]
    intro hmem
    rcases List.mem_append.mp hmem with h1 | h1
    · exact h0 h1
    · rw [List.mem_singleton] at h1
      exact dotted_ne_folder hdot e h1

/-- Once a dotted name is absent from the top level, no later iteration
reintroduces it: iterations only remove top-level entries or create
category folders, whose names contain no dot. -/
theorem runItems_no_new_dotted (faults : Faults) (p : String) :
    ∀ (todo : List String) (d : List Item) (n : String),
      '.' ∈ n.data → n ∉ names d →
      n ∉ names ((runItems faults p d todo).dir)
  | [], d, n, hdot, habs => by
      rw [runItems_nil]
      exact habs
  | t :: rest, d, n, hdot, habs => by
      obtain ⟨⟨d1, mvo, err⟩, hpi⟩ : ∃ r, processItem faults p d t = r := ⟨_, rfl⟩
      cases err with
      | some e =>
          rw [runItems_cons_error hpi]
          rcases processItem_err hpi with ⟨-, rfl | ⟨d0, hmk, rfl⟩⟩
          · exact habs
          · exact mkdir_folder_absent hmk hdot habs
      | none =>
          rw [runItems_cons_ok hpi]
          apply runItems_no_new_dotted faults p rest d1 n hdot
          rcases processItem_ok hpi with ⟨-, it0, hf0, hcase⟩
          rcases hcase with ⟨rfl, -, -⟩ | ⟨dmk, -, -, -, hmk, rfl, -⟩
          · exact habs
          · intro hmem
            have hmem2 := names_rename_subset hmem
            exact mkdir_folder_absent hmk hdot habs hmem2

/-- Every logged move is well-formed: the folder is the classifier's
output on the entry's lower-cased extension, the destination path is
built by joining the target directory, the folder, and the unchanged
entry name, and the entry had a nonempty extension. -/
theorem runItems_moves_wf (faults : Faults) (p : String) :
    ∀ (todo : List String) (d : List Item),
      ∀ mv ∈ (runItems faults p d todo).moves,
        mv.folder = getDestinationFolder (fileExtOf mv.name) ∧
        mv.dest = pathJoin (pathJoin p mv.folder) mv.name ∧
        fileExtOf mv.name ≠ ""
  | [], d => by
      rw [runItems_nil]
      intro mv h
      exact absurd h (List.not_mem_nil mv)
  | t :: rest, d => by
      obtain ⟨⟨d1, mvo, err⟩, hpi⟩ : ∃ r, processItem faults p d t = r := ⟨_, rfl⟩
      cases err with
      | some e =>
          rw [runItems_cons_error hpi]
          intro mv h
          exact absurd h (List.not_mem_nil mv)
      | none =>
          rw [runItems_cons_ok hpi]
          intro mv hmv
          rcases List.mem_append.mp hmv with hl | hr
          · rcases processItem_ok hpi with ⟨-, it0, -, hcase⟩
            rcases hcase with ⟨-, rfl, -⟩ | ⟨dmk, -, -, hext0, -, -, rfl⟩
            · simp at hl
            · have hmveq : mv = Move.mk t (getDestinationFolder (fileExtOf t))
                  (pathJoin (pathJoin p (getDestinationFolder (fileExtOf t))) t) := by
                simpa using hl
              subst hmveq
              exact ⟨rfl, rfl, hext0⟩
          · exact runItems_moves_wf faults p rest d1 mv hr

/-- No moved file is still at the top level at the end of the run. -/
theorem runItems_moves_not_top (faults : Faults) (p : String) :
    ∀ (todo : List String) (d : List Item),
      (names d).Nodup →
      ∀ mv ∈ (runItems faults p d todo).moves,
        mv.name ∉ names ((runItems faults p d todo).dir)
  | [], d, hnd => by
      rw [runItems_nil]
      intro mv h
      exact absurd h (List.not_mem_nil mv)
  | t :: rest, d, hnd => by
      obtain ⟨⟨d1, mvo, err⟩, hpi⟩ : ∃ r, processItem faults p d t = r := ⟨_, rfl⟩
      cases err with
      | some e =>
          rw [runItems_cons_error hpi]
          intro mv h
          exact absurd h (List.not_mem_nil mv)
      | none =>
          rw [runItems_cons_ok hpi]
          intro mv hmv
          have hnd1 : (names d1).Nodup := processItem_ok_nodup hnd hpi
          rcases List.mem_append.mp hmv with hl | hr
          · rcases processItem_ok hpi with ⟨-, it0, -, hcase⟩
            rcases hcase with ⟨-, rfl, -⟩ | ⟨dmk, -, -, hext0, -, rfl, rfl⟩
            · simp at hl
            · have hmveq : mv = Move.mk t (getDestinationFolder (fileExtOf t))
                  (pathJoin (pathJoin p (getDestinationFolder (fileExtOf t))) t) := by
                simpa using hl
              subst hmveq
              apply runItems_no_new_dotted faults p rest _ t (ext_has_dot hext0)
              intro hmem
              exact names_rename_ne hmem rfl
          · exact runItems_moves_not_top faults p rest d1 hnd1 mv hr

theorem isDirIn_insert (d : List Item) (f0 n f : String) :
    isDirIn (insertIntoFolder d f0 n) f ↔ isDirIn d f := by
  have key : ∀ it : Item,
      ((fun it => if it.name == f0 && it.isDir
          then Item.mk it.name it.isDir (insertFile it.files n) else it) it).name = it.name ∧
      ((fun it => if it.name == f0 && it.isDir
          then Item.mk it.name it.isDir (insertFile it.files n) else it) it).isDir = it.isDir := by
    intro it
    show (if (it.name == f0 && it.isDir) = true
        then Item.mk it.name it.isDir (insertFile it.files n) else it).name = it.name ∧
      (if (it.name == f0 && it.isDir) = true
        then Item.mk it.name it.isDir (insertFile it.files n) else it).isDir = it.isDir
    by_cases hc : (it.name == f0 && it.isDir) = true
    · rw [if_pos hc]
      exact ⟨rfl, rfl⟩
    · rw [if_neg hc]
      exact ⟨rfl, rfl⟩
  constructor
  · rintro ⟨it1, hit1, hn, hd⟩
    rcases List.mem_map.mp hit1 with ⟨it, hit, heq⟩
    exact ⟨it, hit, ((key it).1.symm.trans (congrArg Item.name heq)).trans hn,
      ((key it).2.symm.trans (congrArg Item.isDir heq)).trans hd⟩
  · rintro ⟨it, hit, hn, hd⟩
    exact ⟨_, List.mem_map_of_mem _ hit, (key it).1.trans hn, (key it).2.trans hd⟩

theorem isDirIn_removeTop {d : List Item} {n : String} {it0 : Item}
    (hnd : (names d).Nodup) (hf : findItem d n = some it0) (hd0 : it0.isDir = false)
    (f : String) : isDirIn (removeTop d n) f ↔ isDirIn d f := by
  constructor
  · rintro ⟨it, hit, hn, hd⟩
    rw [removeTop, List.mem_filter] at hit
    exact ⟨it, hit.1, hn, hd⟩
  · rintro ⟨it, hit, hn, hd⟩
    have h0 := findItem_some hf
    have hne : it.name ≠ n := by
      intro he
      have heq : it = it0 := name_unique hnd hit h0.1 (he.trans h0.2.symm)
      rw [heq, hd0] at hd
      cases hd
    exact ⟨it, mem_removeTop hit hne, hn, hd⟩

theorem isDirIn_mkdir {d d1 : List Item} {g : String}
    (hmk : mkdirRecursive d g = Except.ok d1) (f : String) :
    isDirIn d1 f ↔ (isDirIn d f ∨ f = g) := by
  rcases mkdirRecursive_ok hmk with ⟨it, hfind, hdir, rfl⟩ | ⟨-, rfl⟩
  · have h0 := findItem_some hfind
    constructor
    · exact Or.inl
    · rintro (h | rfl)
      · exact h
      · exact ⟨it, h0.1, h0.2, hdir⟩
  · constructor
    · rintro ⟨it, hit, hn, hd⟩
      rcases List.mem_append.mp hit with h1 | h1
      · exact Or.inl ⟨it, h1, hn, hd⟩
      · rw [List.mem_singleton] at h1
        subst h1
        exact Or.inr hn.symm
    · rintro (⟨it, hit, hn, hd⟩ | rfl)
      · exact ⟨it, List.mem_append_left _ hit, hn, hd⟩
      · exact ⟨Item.mk f true [], List.mem_append_right _ (List.mem_singleton.mpr rfl), rfl, rfl⟩

/-- After a successful run, a name is a top-level directory exactly when
it already was one or when it is the destination folder of some logged
move. -/
theorem runItems_dirs (faults : Faults) (p : String) :
    ∀ (todo : List String) (d : List Item),
      (names d).Nodup →
      (runItems faults p d todo).error = none →
      ∀ f, isDirIn ((runItems faults p d todo).dir) f ↔
        (isDirIn d f ∨ ∃ mv ∈ (runItems faults p d todo).moves, mv.folder = f)
  | [], d, hnd => by
      rw [runItems_nil]
      intro _herr f
      constructor
      · exact Or.inl
      · rintro (h | ⟨mv, hmv, -⟩)
        · exact h
        · exact absurd hmv (List.not_mem_nil mv)
  | t :: rest, d, hnd => by
      obtain ⟨⟨d1, mvo, err⟩, hpi⟩ : ∃ r, processItem faults p d t = r := ⟨_, rfl⟩
      cases err with
      | some e =>
          rw [runItems_cons_error hpi]
          intro herr
          cases herr
      | none =>
          rw [runItems_cons_ok hpi]
          intro herr f
          have hnd1 : (names d1).Nodup := processItem_ok_nodup hnd hpi
          have IH := runItems_dirs faults p rest d1 hnd1 herr f
          rcases processItem_ok hpi with ⟨-, it0, hf0, hcase⟩
          have h0 := findItem_some hf0
          rcases hcase with ⟨heq1, hmveq, -⟩ | ⟨dmk, hdir0, -, hext0, hmk, heq1, hmveq⟩
          · subst heq1
            subst hmveq
            simpa using IH
          · subst heq1
            subst hmveq
            have hit0mk : findItem dmk t = some it0 := by
              have hmem : it0 ∈ dmk := mem_mkdir hmk h0.1
              have := findItem_self (nodup_mkdir hnd hmk) hmem
              rwa [h0.2] at this
            have hiff1 : isDirIn (renameIntoFolder dmk (getDestinationFolder (fileExtOf t)) t) f
                ↔ isDirIn dmk f := by
              rw [renameIntoFolder, isDirIn_insert]
              exact isDirIn_removeTop (nodup_mkdir hnd hmk) hit0mk hdir0 f
            have hiff2 : isDirIn dmk f ↔
                (isDirIn d f ∨ f = getDestinationFolder (fileExtOf t)) :=
              isDirIn_mkdir hmk f
            rw [IH, hiff1, hiff2]
            constructor
            · rintro ((h | h) | ⟨mv, hmv, he⟩)
              · exact Or.inl h
              · exact Or.inr ⟨Move.mk t (getDestinationFolder (fileExtOf t))
                  (pathJoin (pathJoin p (getDestinationFolder (fileExtOf t))) t),
                  List.mem_cons_self _ _, h.symm⟩
              · exact Or.inr ⟨mv, List.mem_cons_of_mem _ hmv, he⟩
            · rintro (h | ⟨mv, hmv, he⟩)
              · exact Or.inl (Or.inl h)
              · rcases List.mem_cons.mp hmv with rfl | hm
                · exact Or.inl (Or.inr he.symm)
                · exact Or.inr ⟨mv, hm, he⟩

theorem allFilesM_cons (it : Item) (d : List Item) :
    allFilesM (it :: d) = (fileEntries it : Multiset (Option String × String)) + allFilesM d := by
  rw [allFilesM, allFiles]
  exact (Multiset.coe_add _ _).symm

theorem allFilesM_append (d e : List Item) :
    allFilesM (d ++ e) = allFilesM d + allFilesM e := by
  induction d with
  | nil =>
      rw [List.nil_append]
      exact (zero_add _).symm
  | cons a t ih => rw [List.cons_append, allFilesM_cons, allFilesM_cons, ih, add_assoc]

theorem allFilesM_mkdir {d d1 : List Item} {g : String}
    (hmk : mkdirRecursive d g = Except.ok d1) : allFilesM d1 = allFilesM d := by
  rcases mkdirRecursive_ok hmk with ⟨-, -, -, rfl⟩ | ⟨-, rfl⟩
  · rfl
  · rw [allFilesM_append]
    have : allFilesM [Item.mk g true []] = 0 := rfl
    rw [this, add_zero]

theorem none_mem_allFiles {d : List Item} {t : String} :
    (none, t) ∈ allFiles d ↔ ∃ it ∈ d, it.isDir = false ∧ it.name = t := by
  induction d with
  | nil => simp [allFiles]
  | cons a rest ih =>
      rw [allFiles, List.mem_append, ih]
      constructor
      · rintro (h | ⟨it, hit, h1, h2⟩)
        · rw [fileEntries] at h
          by_cases hd : a.isDir = true
          · rw [if_pos hd] at h
            rcases List.mem_map.mp h with ⟨x, -, hx⟩
            cases hx
          · rw [if_neg hd, List.mem_singleton] at h
            exact ⟨a, List.mem_cons_self _ _, eq_false_of_ne_true hd,
              (congrArg Prod.snd h).symm⟩
        · exact ⟨it, List.mem_cons_of_mem _ hit, h1, h2⟩
      · rintro ⟨it, hit, h1, h2⟩
        rcases List.mem_cons.mp hit with rfl | hm
        · refine Or.inl ?_
          rw [fileEntries, if_neg (by rw [h1]; exact Bool.false_ne_true), h2]
          exact List.mem_singleton.mpr rfl
        · exact Or.inr ⟨it, hm, h1, h2⟩

theorem removeTop_eq_self {d : List Item} {n : String}
    (h : ∀ it ∈ d, it.name ≠ n) : removeTop d n = d := by
  rw [removeTop]
  apply List.filter_eq_self.mpr
  intro it hit
  simpa using h it hit

theorem insertIntoFolder_eq_self {d : List Item} {g t : String}
    (h : ∀ it ∈ d, (it.name == g) = false) : insertIntoFolder d g t = d := by
  rw [insertIntoFolder]
  induction d with
  | nil => rfl
  | cons a rest ih =>
      rw [List.map_cons]
      have hc : (a.name == g && a.isDir) = false := by
        rw [h a (List.mem_cons_self _ _)]
        rfl
      rw [if_neg (by rw [hc]; exact Bool.false_ne_true)]
      rw [ih (fun it hit => h it (List.mem_cons_of_mem _ hit))]

theorem allFilesM_removeTop {d : List Item} {t : String} {it0 : Item}
    (hnd : (names d).Nodup) (hf : findItem d t = some it0) (hd0 : it0.isDir = false) :
    allFilesM d = allFilesM (removeTop d t) + {(none, t)} := by
  induction d with
  | nil => exact Option.noConfusion hf
  | cons a rest ih =>
      rw [names, List.map_cons, List.nodup_cons] at hnd
      by_cases hb : (a.name == t) = true
      · have ha : a = it0 := by
          rw [findItem] at hf
          simp only [List.find?_cons, hb] at hf
          exact Option.some.inj hf
        have haname : a.name = t := beq_iff_eq.mp hb
        have hnorest : ∀ it ∈ rest, it.name ≠ t := by
          intro it hit he
          exact hnd.1 (haname ▸ he ▸ List.mem_map_of_mem Item.name hit)
        have hrt : removeTop (a :: rest) t = rest := by
          rw [removeTop, List.filter_cons]
          have : (!(a.name == t)) = false := by rw [hb]; rfl
          rw [if_neg (by rw [this]; exact Bool.false_ne_true)]
          exact removeTop_eq_self hnorest
        rw [allFilesM_cons, hrt]
        have hfe : (fileEntries a : Multiset (Option String × String)) = {(none, t)} := by
          rw [fileEntries, if_neg (by rw [ha, hd0]; exact Bool.false_ne_true), haname]
          rfl
        rw [hfe, add_comm]
      · have hb' : (a.name == t) = false := eq_false_of_ne_true hb
        have hfr : findItem rest t = some it0 := by
          rw [findItem] at hf ⊢
          simpa only [List.find?_cons, hb'] using hf
        have hrt : removeTop (a :: rest) t = a :: removeTop rest t := by
          rw [removeTop, List.filter_cons]
          have : (!(a.name == t)) = true := by rw [hb']; rfl
          rw [if_pos this]
          rfl
        rw [allFilesM_cons, hrt, allFilesM_cons, ih hnd.2 hfr, add_assoc]

theorem allFilesM_insert {d : List Item} {g t : String} {itg : Item}
    (hnd : (names d).Nodup) (hf : findItem d g = some itg) (hdg : itg.isDir = true)
    (htf : t ∉ itg.files) :
    allFilesM (insertIntoFolder d g t) = allFilesM d + {(some g, t)} := by
  induction d with
  | nil => exact Option.noConfusion hf
  | cons a rest ih =>
      rw [names, List.map_cons, List.nodup_cons] at hnd
      by_cases hb : (a.name == g) = true
      · have ha : a = itg := by
          rw [findItem] at hf
          simp only [List.find?_cons, hb] at hf
          exact Option.some.inj hf
        have haname : a.name = g := beq_iff_eq.mp hb
        have hadir : a.isDir = true := by rw [ha]; exact hdg
        have hatf : t ∉ a.files := by rw [ha]; exact htf
        have hnorest : ∀ it ∈ rest, (it.name == g) = false := by
          intro it hit
          rw [beq_eq_false_iff_ne]
          intro he
          exact hnd.1 (haname ▸ he ▸ List.mem_map_of_mem Item.name hit)
        have hc : (a.name == g && a.isDir) = true := by rw [hb, hadir]; rfl
        have hmap : insertIntoFolder (a :: rest) g t =
            Item.mk a.name a.isDir (insertFile a.files t) :: rest := by
          rw [insertIntoFolder, List.map_cons]
          rw [if_pos hc]
          have hrest : insertIntoFolder rest g t = rest := insertIntoFolder_eq_self hnorest
          rw [insertIntoFolder] at hrest
          rw [hrest]
        rw [hmap, allFilesM_cons, allFilesM_cons]
        have hins : insertFile a.files t = a.files ++ [t] := by
          rw [insertFile, if_neg]
          intro hcon
          exact hatf (by simpa using hcon)
        have hfe : (fileEntries (Item.mk a.name a.isDir (insertFile a.files t)) :
            Multiset (Option String × String)) =
            (fileEntries a : Multiset (Option String × String)) + {(some g, t)} := by
          rw [fileEntries, fileEntries]
          rw [if_pos (by rw [hadir] : (Item.mk a.name a.isDir (insertFile a.files t)).isDir = true),
            if_pos hadir]
          show ((insertFile a.files t).map (fun x => (some a.name, x)) :
              Multiset (Option String × String)) = _
          rw [hins, List.map_append, haname]
          exact Multiset.coe_add _ _
        rw [hfe, add_assoc, add_comm ({(some g, t)} : Multiset (Option String × String)) _,
          ← add_assoc]
      · have hb' : (a.name == g) = false := eq_false_of_ne_true hb
        have hfr : findItem rest g = some itg := by
          rw [findItem] at hf ⊢
          simpa only [List.find?_cons, hb'] using hf
        have hc : (a.name == g && a.isDir) = false := by rw [hb']; rfl
        have hmap : insertIntoFolder (a :: rest) g t = a :: insertIntoFolder rest g t := by
          rw [insertIntoFolder, List.map_cons, if_neg (by rw [hc]; exact Bool.false_ne_true)]
          rfl
        rw [hmap, allFilesM_cons, allFilesM_cons, ih hnd.2 hfr, add_assoc]

theorem mem_insertFile_inv {files : List String} {n x : String}
    (h : x ∈ insertFile files n) : x ∈ files ∨ x = n := by
  rw [insertFile] at h
  split at h
  · exact Or.inl h
  · rcases List.mem_append.mp h with h1 | h1
    · exact Or.inl h1
    · exact Or.inr (List.mem_singleton.mp h1)

theorem mem_rename_files_inv {d : List Item} {f n : String} {it1 : Item}
    (h : it1 ∈ renameIntoFolder d f n) :
    ∃ it ∈ d, it1.name = it.name ∧ it1.isDir = it.isDir ∧
      ∀ x ∈ it1.files, x ∈ it.files ∨ x = n := by
  rw [renameIntoFolder, insertIntoFolder] at h
  rcases List.mem_map.mp h with ⟨it, hit, heq0⟩
  have hitd : it ∈ d := by
    rw [removeTop, List.mem_filter] at hit
    exact hit.1
  have heq : (if (it.name == f && it.isDir) = true
      then Item.mk it.name it.isDir (insertFile it.files n) else it) = it1 := heq0
  by_cases hc : (it.name == f && it.isDir) = true
  · rw [if_pos hc] at heq
    refine ⟨it, hitd, ?_, ?_, ?_⟩
    · rw [← heq]
    · rw [← heq]
    · intro x hx
      rw [← heq] at hx
      exact mem_insertFile_inv hx
  · rw [if_neg hc] at heq
    refine ⟨it, hitd, ?_, ?_, ?_⟩
    · rw [← heq]
    · rw [← heq]
    · intro x hx
      rw [← heq] at hx
      exact Or.inl hx

theorem runItems_moves_names (faults : Faults) (p : String) :
    ∀ (todo : List String) (d : List Item),
      ∀ mv ∈ (runItems faults p d todo).moves, mv.name ∈ todo
  | [], d => by
      rw [runItems_nil]
      intro mv h
      exact absurd h (List.not_mem_nil mv)
  | t :: rest, d => by
      obtain ⟨⟨d1, mvo, err⟩, hpi⟩ : ∃ r, processItem faults p d t = r := ⟨_, rfl⟩
      cases err with
      | some e =>
          rw [runItems_cons_error hpi]
          intro mv h
          exact absurd h (List.not_mem_nil mv)
      | none =>
          rw [runItems_cons_ok hpi]
          intro mv hmv
          rcases List.mem_append.mp hmv with hl | hr
          · rcases processItem_ok hpi with ⟨-, it0, -, hcase⟩
            rcases hcase with ⟨-, rfl, -⟩ | ⟨dmk, -, -, -, -, -, rfl⟩
            · simp at hl
            · have hmveq : mv = Move.mk t (getDestinationFolder (fileExtOf t))
                  (pathJoin (pathJoin p (getDestinationFolder (fileExtOf t))) t) := by
                simpa using hl
              rw [hmveq]
              exact List.mem_cons_self _ _
          · exact List.mem_cons_of_mem _ (runItems_moves_names faults p rest d1 mv hr)

theorem relocate_head (n g ds : String) (rest : List Move) :
    relocateBy (Move.mk n g ds :: rest) (none, n) = (some g, n) := by
  have h : moveTargetOf (Move.mk n g ds :: rest) n = some g := by
    rw [moveTargetOf]
    simp [List.find?_cons]
  rw [relocateBy, h]

theorem relocate_cons_ne (m : Move) (rest : List Move) (x : String) (h : x ≠ m.name) :
    relocateBy (m :: rest) (none, x) = relocateBy rest (none, x) := by
  have hb : (m.name == x) = false := by
    rw [beq_eq_false_iff_ne]
    exact fun he => h he.symm
  have ht : moveTargetOf (m :: rest) x = moveTargetOf rest x := by
    rw [moveTargetOf, moveTargetOf]
    simp only [List.find?_cons, hb]
  rw [relocateBy, relocateBy, ht]

theorem relocate_nil (z : Option String × String) : relocateBy [] z = z := by
  match z with
  | (some g, x) => rfl
  | (none, x) => rfl

theorem map_relocate_cons {M : Multiset (Option String × String)} {m : Move}
    {rest : List Move} (h : (none, m.name) ∉ M) :
    M.map (relocateBy (m :: rest)) = M.map (relocateBy rest) := by
  apply Multiset.map_congr rfl
  intro z hz
  match z with
  | (some g, x) => rfl
  | (none, x) =>
      have hx : x ≠ m.name := fun he => h (he ▸ hz)
      exact relocate_cons_ne m rest x hx

/-- Main file-accounting invariant: a successful run permutes the
files — the final multiset of (location, name) pairs is the initial one
with each moved top-level file relocated to its destination folder —
provided no destination was already occupied. -/
theorem runItems_allFiles (faults : Faults) (p : String) :
    ∀ (todo : List String) (d : List Item),
      (names d).Nodup → todo.Nodup →
      (runItems faults p d todo).error = none →
      OccFree d ((runItems faults p d todo).moves) →
      allFilesM ((runItems faults p d todo).dir) =
        (allFilesM d).map (relocateBy ((runItems faults p d todo).moves))
  | [], d, hnd, htd, herr, hocc => by
      rw [runItems_nil]
      refine ((Multiset.map_congr rfl (fun z _ => (relocate_nil z))).trans
        (Multiset.map_id _)).symm
  | t :: rest, d, hnd, htd, herr, hocc => by
      obtain ⟨⟨d1, mvo, err⟩, hpi⟩ : ∃ r, processItem faults p d t = r := ⟨_, rfl⟩
      cases err with
      | some e =>
          rw [runItems_cons_error hpi] at herr
          cases herr
      | none =>
          rw [runItems_cons_ok hpi] at herr hocc ⊢
          rw [List.nodup_cons] at htd
          have hnd1 : (names d1).Nodup := processItem_ok_nodup hnd hpi
          rcases processItem_ok hpi with ⟨-, it0, hf0, hcase⟩
          have h0 := findItem_some hf0
          rcases hcase with ⟨heq1, hmveq, -⟩ | ⟨dmk, hdir0, -, hext0, hmk, heq1, hmveq⟩
          · subst heq1
            subst hmveq
            exact runItems_allFiles faults p rest _ hnd htd.2 herr hocc
          · subst heq1
            subst hmveq
            have hnd_mk : (names dmk).Nodup := nodup_mkdir hnd hmk
            have hit0mk : findItem dmk t = some it0 := by
              have hmem : it0 ∈ dmk := mem_mkdir hmk h0.1
              have hfs := findItem_self hnd_mk hmem
              rwa [h0.2] at hfs
            have hgt : getDestinationFolder (fileExtOf t) ≠ t := folder_ne_movable hext0
            have hocc_head : ∀ it ∈ d, it.name = getDestinationFolder (fileExtOf t) →
                it.isDir = true → t ∉ it.files := by
              intro it hit hn hd2
              exact hocc (Move.mk t (getDestinationFolder (fileExtOf t))
                  (pathJoin (pathJoin p (getDestinationFolder (fileExtOf t))) t))
                (List.mem_cons_self _ _) it hit hn hd2
            have htnotop : t ∉ names (removeTop dmk t) := by
              intro hmem
              rw [names_removeTop, List.mem_filter] at hmem
              simp at hmem
            have hgdir : ∃ itg, findItem (removeTop dmk t) (getDestinationFolder (fileExtOf t)) =
                some itg ∧ itg.isDir = true ∧ t ∉ itg.files := by
              rcases mkdirRecursive_ok hmk with ⟨itg, hfind, hdir, heqd⟩ | ⟨hfind, heqd⟩
              · subst heqd
                have hg0 := findItem_some hfind
                have hgne : itg.name ≠ t := by
                  rw [hg0.2]
                  exact hgt
                have hmemr : itg ∈ removeTop dmk t := mem_removeTop hg0.1 hgne
                have hfs := findItem_self (nodup_removeTop hnd_mk) hmemr
                rw [hg0.2] at hfs
                exact ⟨itg, hfs, hdir, hocc_head itg hg0.1 hg0.2 hdir⟩
              · subst heqd
                have hmemg : Item.mk (getDestinationFolder (fileExtOf t)) true [] ∈
                    d ++ [Item.mk (getDestinationFolder (fileExtOf t)) true []] :=
                  List.mem_append_right _ (List.mem_singleton.mpr rfl)
                have hmemr := mem_removeTop hmemg hgt
                have hfs := findItem_self (nodup_removeTop hnd_mk) hmemr
                exact ⟨Item.mk (getDestinationFolder (fileExtOf t)) true [], hfs, rfl,
                  List.not_mem_nil t⟩
            rcases hgdir with ⟨itg, hgfind, hgdir2, hgtf⟩
            have E1 : allFilesM d = allFilesM (removeTop dmk t) + {(none, t)} := by
              rw [← allFilesM_mkdir hmk]
              exact allFilesM_removeTop hnd_mk hit0mk hdir0
            have E2 : allFilesM (renameIntoFolder dmk (getDestinationFolder (fileExtOf t)) t) =
                allFilesM (removeTop dmk t) + {(some (getDestinationFolder (fileExtOf t)), t)} := by
              rw [renameIntoFolder]
              exact allFilesM_insert (nodup_removeTop hnd_mk) hgfind hgdir2 hgtf
            have hnm : (none, t) ∉ allFilesM (removeTop dmk t) := by
              intro hmem
              rcases none_mem_allFiles.mp hmem with ⟨it, hit, -, hn⟩
              have hmm := List.mem_map_of_mem Item.name hit
              rw [hn] at hmm
              exact htnotop hmm
            have hocc1 : OccFree (renameIntoFolder dmk (getDestinationFolder (fileExtOf t)) t)
                ((runItems faults p
                  (renameIntoFolder dmk (getDestinationFolder (fileExtOf t)) t) rest).moves) := by
              intro mv' hmv' it1 hit1 hn1 hd1q hxmem
              rcases mem_rename_files_inv hit1 with ⟨it, hitmk, hname, hisdir, hfiles⟩
              have hmvrest : mv'.name ∈ rest :=
                runItems_moves_names faults p rest _ mv' hmv'
              have hmvnet : mv'.name ≠ t := by
                intro he
                exact htd.1 (he ▸ hmvrest)
              rcases hfiles mv'.name hxmem with hin | heq2
              · rcases mem_mkdir_inv hmk hitmk with hitd2 | hnew
                · exact hocc mv' (List.mem_cons_of_mem _ hmv') it hitd2
                    (hname.symm.trans hn1) (hisdir.symm.trans hd1q) hin
                · rw [hnew] at hin
                  exact absurd hin (List.not_mem_nil _)
              · exact hmvnet heq2
            have IH := runItems_allFiles faults p rest _ hnd1 htd.2 herr hocc1
            simp only [Option.toList_some, List.singleton_append]
            rw [IH, E2, E1, Multiset.map_add, Multiset.map_add, Multiset.map_singleton,
              Multiset.map_singleton, relocate_head, map_relocate_cons hnm]
            rfl


theorem relocate_none_eval (ms : List Move) (n : String) :
    relocateBy ms (none, n) =
      (match moveTargetOf ms n with
       | some f => (some f, n)
       | none => (none, n)) :=
  rfl

/-- Claim C10: under the preconditions that top-level names are unique
(no two processed entries can then share a destination path) and that no
destination is already occupied, a successful run preserves the set of
files: the final multiset of (location, name) pairs equals the initial
one with each moved top-level file transported, under its unchanged
name, to the folder its (unique) log entry names; in particular every
top-level file of the initial state is afterwards either still at the
top level (when no move names it) or inside exactly the folder its move
names — nothing is deleted or duplicated. -/
theorem C10_file_preservation (faults : Faults) (p : String) (d : List Item)
    (hnd : (names d).Nodup)
    (hsucc : (organizeDirectory faults p d).error = none)
    (hocc : OccFree d (organizeDirectory faults p d).moves) :
    allFilesM (organizeDirectory faults p d).dir =
      (allFilesM d).map (relocateBy (organizeDirectory faults p d).moves) ∧
    (∀ n, (none, n) ∈ allFiles d →
      (moveTargetOf (organizeDirectory faults p d).moves n = none →
        (none, n) ∈ allFiles (organizeDirectory faults p d).dir) ∧
      (∀ f, moveTargetOf (organizeDirectory faults p d).moves n = some f →
        (some f, n) ∈ allFiles (organizeDirectory faults p d).dir)) := by
  cases hrd : faults.readdirFail with
  | some e =>
      rw [organizeDirectory, hrd] at hsucc
      exact Option.noConfusion hsucc
  | none =>
      rw [organizeDirectory_eq_run hrd] at hsucc hocc ⊢
      have hmain := runItems_allFiles faults p (names d) d hnd hnd hsucc hocc
      refine ⟨hmain, ?_⟩
      intro n hmem
      have hx : relocateBy ((runItems faults p d (names d)).moves) (none, n) ∈
          allFilesM ((runItems faults p d (names d)).dir) := by
        rw [hmain]
        exact Multiset.mem_map_of_mem _ (Multiset.mem_coe.mpr hmem)
      constructor
      · intro hnone
        have h1 : relocateBy ((runItems faults p d (names d)).moves) (none, n) = (none, n) := by
          rw [relocate_none_eval, hnone]
        rw [h1] at hx
        exact Multiset.mem_coe.mp hx
      · intro f hf
        have h1 : relocateBy ((runItems faults p d (names d)).moves) (none, n) =
            (some f, n) := by
          rw [relocate_none_eval, hf]
        rw [h1] at hx
        exact Multiset.mem_coe.mp hx


/-- Witness for C10 at a concrete directory: `a.jpg` is moved into
`imagens`, `notes` stays at the top level, `x.txt` stays inside
`docs`. -/
theorem C10_file_preservation_witness :
    allFilesM (organizeDirectory noFaults "/t" egDirC10).dir =
      (allFilesM egDirC10).map (relocateBy (organizeDirectory noFaults "/t" egDirC10).moves) ∧
    (∀ n, (none, n) ∈ allFiles egDirC10 →
      (moveTargetOf (organizeDirectory noFaults "/t" egDirC10).moves n = none →
        (none, n) ∈ allFiles (organizeDirectory noFaults "/t" egDirC10).dir) ∧
      (∀ f, moveTargetOf (organizeDirectory noFaults "/t" egDirC10).moves n = some f →
        (some f, n) ∈ allFiles (organizeDirectory noFaults "/t" egDirC10).dir)) :=
  C10_file_preservation noFaults "/t" egDirC10 (by decide) (by decide) (by decide)

/-- Claim C9: for every moved file the destination is
`<target>/<category>/<entry name>` — built by `path.join(path.join(dir,
folder), item)` with the entry name unchanged — and after a successful
run the moved file is recorded under its destination folder with no
copy left at the top level; top-level directories of the final state are
exactly the pre-existing ones plus the categories that received at least
one file; and the mkdir step is idempotent: it returns the state
unchanged when the folder already exists as a directory and appends an
empty directory when it is absent. -/
theorem C9_move_destinations (faults : Faults) (p : String) (d : List Item)
    (hnd : (names d).Nodup)
    (hsucc : (organizeDirectory faults p d).error = none) :
    (∀ mv ∈ (organizeDirectory faults p d).moves,
        mv.folder = getDestinationFolder (fileExtOf mv.name) ∧
        mv.dest = pathJoin (pathJoin p mv.folder) mv.name ∧
        dirHasFile (organizeDirectory faults p d).dir mv.folder mv.name ∧
        mv.name ∉ names (organizeDirectory faults p d).dir) ∧
    (∀ f, isDirIn (organizeDirectory faults p d).dir f ↔
        (isDirIn d f ∨ ∃ mv ∈ (organizeDirectory faults p d).moves, mv.folder = f)) ∧
    (∀ f it, findItem d f = some it → it.isDir = true →
        mkdirRecursive d f = Except.ok d) ∧
    (∀ f, findItem d f = none →
        mkdirRecursive d f = Except.ok (d ++ [Item.mk f true []])) := by
  cases hrd : faults.readdirFail with
  | some e =>
      rw [organizeDirectory, hrd] at hsucc
      exact Option.noConfusion hsucc
  | none =>
      rw [organizeDirectory_eq_run hrd] at hsucc ⊢
      refine ⟨?_, runItems_dirs faults p (names d) d hnd hsucc, ?_, ?_⟩
      · intro mv hmv
        obtain ⟨h1, h2, -⟩ := runItems_moves_wf faults p (names d) d mv hmv
        exact ⟨h1, h2, runItems_moves_recorded faults p (names d) d hnd mv hmv,
          runItems_moves_not_top faults p (names d) d hnd mv hmv⟩
      · intro f it hfind hdir
        simp [mkdirRecursive, hfind, hdir]
      · intro f hfind
        simp [mkdirRecursive, hfind]


/-- Witness for C9 at a concrete directory. -/
theorem C9_move_destinations_witness :
    (∀ mv ∈ (organizeDirectory noFaults "/t" egDirC9).moves,
        mv.folder = getDestinationFolder (fileExtOf mv.name) ∧
        mv.dest = pathJoin (pathJoin "/t" mv.folder) mv.name ∧
        dirHasFile (organizeDirectory noFaults "/t" egDirC9).dir mv.folder mv.name ∧
        mv.name ∉ names (organizeDirectory noFaults "/t" egDirC9).dir) ∧
    (∀ f, isDirIn (organizeDirectory noFaults "/t" egDirC9).dir f ↔
        (isDirIn egDirC9 f ∨
          ∃ mv ∈ (organizeDirectory noFaults "/t" egDirC9).moves, mv.folder = f)) ∧
    (∀ f it, findItem egDirC9 f = some it → it.isDir = true →
        mkdirRecursive egDirC9 f = Except.ok egDirC9) ∧
    (∀ f, findItem egDirC9 f = none →
        mkdirRecursive egDirC9 f = Except.ok (egDirC9 ++ [Item.mk f true []])) :=
  C9_move_destinations noFaults "/t" egDirC9 (by decide) (by decide)

/-- Claim C8: the organizer is idempotent.  After a successful fault-free
run, a second fault-free run on the resulting directory moves zero
files, changes nothing, and succeeds: every eligible file was already
relocated on the first run and every remaining top-level entry is
skipped (directories — including the created category folders — the
script, and extension-less files). -/
theorem C8_idempotent (p : String) (d : List Item)
    (hnd : (names d).Nodup)
    (hsucc : (organizeDirectory noFaults p d).error = none) :
    (organizeDirectory noFaults p (organizeDirectory noFaults p d).dir).moves = [] ∧
    (organizeDirectory noFaults p (organizeDirectory noFaults p d).dir).dir =
      (organizeDirectory noFaults p d).dir ∧
    (organizeDirectory noFaults p (organizeDirectory noFaults p d).dir).error = none := by
  have heq : organizeDirectory noFaults p d = runItems noFaults p d (names d) :=
    organizeDirectory_eq_run rfl
  rw [heq] at hsucc ⊢
  have hsettled : ∀ it2 ∈ (runItems noFaults p d (names d)).dir, skippable it2 :=
    runItems_settles noFaults p (names d) d hnd
      (fun it hit hnot => absurd (mem_names.mpr ⟨it, hit, rfl⟩) hnot) hsucc
  have hpre2 : ∀ n ∈ names ((runItems noFaults p d (names d)).dir),
      ∃ it, findItem ((runItems noFaults p d (names d)).dir) n = some it ∧ skippable it := by
    intro n hn
    obtain ⟨it, hf, -⟩ := find_of_mem_names hn
    exact ⟨it, hf, hsettled it (findItem_some hf).1⟩
  have h2 : organizeDirectory noFaults p ((runItems noFaults p d (names d)).dir) =
      runItems noFaults p ((runItems noFaults p d (names d)).dir)
        (names ((runItems noFaults p d (names d)).dir)) :=
    organizeDirectory_eq_run rfl
  rw [h2, runItems_noop p _ _ hpre2]
  exact ⟨rfl, rfl, rfl⟩


/-- Witness for C8 at a concrete directory whose first run moves
`photo.JPG` into `imagens`. -/
theorem C8_idempotent_witness :
    (organizeDirectory noFaults "/t" (organizeDirectory noFaults "/t" egDirC8).dir).moves = [] ∧
    (organizeDirectory noFaults "/t" (organizeDirectory noFaults "/t" egDirC8).dir).dir =
      (organizeDirectory noFaults "/t" egDirC8).dir ∧
    (organizeDirectory noFaults "/t" (organizeDirectory noFaults "/t" egDirC8).dir).error = none :=
  C8_idempotent "/t" egDirC8 (by decide) (by decide)


/-- Witness for C6: the pure dotfile `.gitignore` is left in place by a
run that does move `a.txt`. -/
theorem C6_skip_no_extension_witness :
    Item.mk ".gitignore" false [] ∈ (organizeDirectory noFaults "/t" egDirC6).dir ∧
    (∀ mv ∈ (organizeDirectory noFaults "/t" egDirC6).moves, mv.name ≠ ".gitignore") ∧
    (noFaults.statFail ".gitignore" = none →
      processItem noFaults "/t" egDirC6 ".gitignore" = (egDirC6, none, none)) :=
  C6_skip_no_extension noFaults "/t" egDirC6 (Item.mk ".gitignore" false [])
    (by decide) (by decide) rfl (by decide)

end FileOrganizer
